import Mathlib

/-!
Verification of the departamentales-2025 processing engine.

Shallow embedding of the core domain code of the repository:
text and number normalization (src/domain/transformers/text_normalizer.py,
src/domain/transformers/cleaning.py), the canonical model
(src/domain/models.py), the Article 272 seat apportionment
(src/domain/enrichers/ediles_272.py), the list-level apportionments
(src/domain/enrichers/municipal_concejales.py and
src/domain/enrichers/enrich.py), and the enrichment and aggregation
orchestration (src/domain/enrichers/enrich.py).

Python dictionaries are modelled as association lists in insertion order,
machine floats as exact rationals, and library calls (unicodedata,
decimal.Decimal, numpy argsort and argmax, str methods) are modelled
character- and element-wise as documented below next to each definition.
-/

/- ------------------------------------------------------------------ -/
/- Text normalizer: src/domain/transformers/text_normalizer.py        -/
/- ------------------------------------------------------------------ -/

/-- Accent folding table: pairs of a non-ASCII Latin letter and the ASCII
base letter that survives NFKD decomposition followed by the ascii codec
with errors ignored.  Covers the accented letters the source handles in
its ACCENT_MAP plus the common Spanish letters whose NFKD form has an
ASCII base. -/
def accentPairs : List (Char × Char) :=
  [('á', 'a'), ('é', 'e'), ('í', 'i'), ('ó', 'o'), ('ú', 'u'),
   ('à', 'a'), ('è', 'e'), ('ì', 'i'), ('ò', 'o'), ('ù', 'u'),
   ('ä', 'a'), ('ë', 'e'), ('ï', 'i'), ('ö', 'o'), ('ü', 'u'),
   ('â', 'a'), ('ê', 'e'), ('î', 'i'), ('ô', 'o'), ('û', 'u'),
   ('Á', 'A'), ('É', 'E'), ('Í', 'I'), ('Ó', 'O'), ('Ú', 'U'),
   ('À', 'A'), ('È', 'E'), ('Ì', 'I'), ('Ò', 'O'), ('Ù', 'U'),
   ('Ä', 'A'), ('Ë', 'E'), ('Ï', 'I'), ('Ö', 'O'), ('Ü', 'U'),
   ('Â', 'A'), ('Ê', 'E'), ('Î', 'I'), ('Ô', 'O'), ('Û', 'U'),
   ('ñ', 'n'), ('Ñ', 'N'), ('ç', 'c'), ('Ç', 'C')]

/-- Character-wise model of `normalize("NFKD", txt).encode("ascii", "ignore")`:
ASCII characters are NFKD-invariant and kept; accented Latin letters
decompose into an ASCII base letter plus combining marks that the ascii
codec drops; any other non-ASCII character is dropped entirely. -/
def nfkdAsciiChar (c : Char) : List Char :=
  if c.toNat < 128 then [c]
  else
    match accentPairs.find? (fun p => p.1 == c) with
    | some p => [p.2]
    | none => []

/-- ASCII whitespace, the characters matched by the regex \s+ on the
pure-ASCII intermediate string (space, tab, newline, vertical tab,
form feed, carriage return). -/
def pyIsSpace (c : Char) : Bool :=
  c.toNat == 32 || c.toNat == 9 || c.toNat == 10 ||
  c.toNat == 11 || c.toNat == 12 || c.toNat == 13

/-- ASCII model of str.upper applied to the pure-ASCII intermediate
string: lowercase ASCII letters are shifted to uppercase, everything
else is unchanged. -/
def pyUpperChar (c : Char) : Char :=
  if 97 ≤ c.toNat ∧ c.toNat ≤ 122 then Char.ofNat (c.toNat - 32) else c

/-- Model of the substitution of the regex \s+ by a single space: each
maximal run of whitespace characters is replaced by one space.  The
boolean argument records whether the previous character belonged to a
whitespace run. -/
def collapseWsAux : Bool → List Char → List Char
  | _, [] => []
  | prevWs, c :: cs =>
    if pyIsSpace c then
      if prevWs then collapseWsAux true cs else ' ' :: collapseWsAux true cs
    else c :: collapseWsAux false cs

/-- Model of str.strip on the pure-ASCII intermediate string: drop
whitespace from both ends. -/
def pyStrip (l : List Char) : List Char :=
  ((l.dropWhile pyIsSpace).reverse.dropWhile pyIsSpace).reverse

/-- The characters kept by the removal of the regex class complementary
to A-Z, 0-9 and space. -/
def isAllowedChar (c : Char) : Bool :=
  c.toNat == 32 || (48 ≤ c.toNat && c.toNat ≤ 57) || (65 ≤ c.toNat && c.toNat ≤ 90)

/-- Embedding of simplify: fold to ASCII, uppercase, collapse whitespace
runs to one space, strip, then remove every character that is not an
uppercase letter, a digit or a space. -/
def simplify (txt : String) : String :=
  String.mk
    ((pyStrip (collapseWsAux false ((txt.toList.flatMap nfkdAsciiChar).map pyUpperChar))).filter
      isAllowedChar)

example : simplify ("Frente Amplio") = ("FRENTE AMPLIO") := by decide

example : simplify ("A .") = ("A ") := by decide

/- Space-normalization lemmas used to settle the idempotence claim. -/

/-- Lists without two adjacent whitespace characters. -/
def NoAdjWs (l : List Char) : Prop :=
  List.Chain' (fun a b => ¬(pyIsSpace a = true ∧ pyIsSpace b = true)) l

/-- Every whitespace character of the list is a plain space. -/
def WsBlank (l : List Char) : Prop :=
  ∀ c ∈ l, pyIsSpace c = true → c = ' '

/-- The head of the list, when present, is not whitespace. -/
def HeadNotWs (l : List Char) : Prop :=
  ∀ c ∈ l.head?, pyIsSpace c = false

/-- The space-normalization core of simplify: collapse whitespace runs,
then strip both ends. -/
def normSpace (l : List Char) : List Char :=
  pyStrip (collapseWsAux false l)

lemma headNotWs_nil : HeadNotWs [] := by
  intro c hc; simp at hc

lemma collapseWsAux_cons_sp_false {c : Char} {cs : List Char} (h : pyIsSpace c = true) :
    collapseWsAux false (c :: cs) = ' ' :: collapseWsAux true cs := by
  simp [collapseWsAux, h]

lemma collapseWsAux_cons_sp_true {c : Char} {cs : List Char} (h : pyIsSpace c = true) :
    collapseWsAux true (c :: cs) = collapseWsAux true cs := by
  simp [collapseWsAux, h]

lemma collapseWsAux_cons_nsp {c : Char} {cs : List Char} (b : Bool)
    (h : pyIsSpace c = false) :
    collapseWsAux b (c :: cs) = c :: collapseWsAux false cs := by
  cases b <;> simp [collapseWsAux, h]

lemma collapseWsAux_spec (l : List Char) :
    NoAdjWs (collapseWsAux false l) ∧ NoAdjWs (collapseWsAux true l) ∧
      HeadNotWs (collapseWsAux true l) := by
  induction l with
  | nil => exact ⟨List.chain'_nil, List.chain'_nil, headNotWs_nil⟩
  | cons c cs ih =>
    by_cases hsp : pyIsSpace c = true
    · refine ⟨?_, ?_, ?_⟩
      · rw [collapseWsAux_cons_sp_false hsp, NoAdjWs, List.chain'_cons']
        refine ⟨fun y hy => ?_, ih.2.1⟩
        have := ih.2.2 y hy
        simp [this]
      · rw [collapseWsAux_cons_sp_true hsp]
        exact ih.2.1
      · rw [collapseWsAux_cons_sp_true hsp]
        exact ih.2.2
    · rw [Bool.not_eq_true] at hsp
      have hch : NoAdjWs (c :: collapseWsAux false cs) := by
        rw [NoAdjWs, List.chain'_cons']
        refine ⟨fun y _ => ?_, ih.1⟩
        simp [hsp]
      refine ⟨?_, ?_, ?_⟩
      · rw [collapseWsAux_cons_nsp false hsp]; exact hch
      · rw [collapseWsAux_cons_nsp true hsp]; exact hch
      · rw [collapseWsAux_cons_nsp true hsp]
        intro x hx
        simp only [List.head?_cons, Option.mem_some_iff] at hx
        subst hx
        exact hsp

lemma collapseWsAux_blank (l : List Char) (b : Bool) : WsBlank (collapseWsAux b l) := by
  induction l generalizing b with
  | nil => intro c hc; simp [collapseWsAux] at hc
  | cons c cs ih =>
    by_cases hsp : pyIsSpace c = true
    · cases b with
      | true =>
        rw [collapseWsAux_cons_sp_true hsp]
        exact ih true
      | false =>
        rw [collapseWsAux_cons_sp_false hsp]
        intro x hx hws
        rcases List.mem_cons.mp hx with h | h
        · exact h
        · exact ih true x h hws
    · rw [Bool.not_eq_true] at hsp
      rw [collapseWsAux_cons_nsp b hsp]
      intro x hx hws
      rcases List.mem_cons.mp hx with h | h
      · subst h; rw [hws] at hsp; exact absurd hsp (by simp)
      · exact ih false x h hws

lemma collapseWsAux_id (l : List Char) (hadj : NoAdjWs l) (hbl : WsBlank l) :
    collapseWsAux false l = l ∧ (HeadNotWs l → collapseWsAux true l = l) := by
  induction l with
  | nil => exact ⟨rfl, fun _ => rfl⟩
  | cons c cs ih =>
    rw [NoAdjWs, List.chain'_cons'] at hadj
    have hbl' : WsBlank cs := fun x hx => hbl x (List.mem_cons_of_mem _ hx)
    have ihs := ih hadj.2 hbl'
    by_cases hsp : pyIsSpace c = true
    · have hce : c = ' ' := hbl c (List.mem_cons_self _ _) hsp
      have hhead : HeadNotWs cs := by
        intro y hy
        have := hadj.1 y hy
        by_contra hy'
        exact this ⟨hsp, by simpa using hy'⟩
      constructor
      · rw [collapseWsAux_cons_sp_false hsp, ihs.2 hhead, hce]
      · intro hh
        exfalso
        have := hh c (by simp)
        rw [this] at hsp
        exact Bool.false_ne_true hsp
    · rw [Bool.not_eq_true] at hsp
      constructor
      · rw [collapseWsAux_cons_nsp false hsp, ihs.1]
      · intro _
        rw [collapseWsAux_cons_nsp true hsp, ihs.1]

lemma headNotWs_dropWhile (l : List Char) : HeadNotWs (l.dropWhile pyIsSpace) := by
  induction l with
  | nil => exact headNotWs_nil
  | cons c cs ih =>
    by_cases hsp : pyIsSpace c = true
    · rw [List.dropWhile_cons_of_pos hsp]; exact ih
    · rw [List.dropWhile_cons_of_neg hsp]
      intro x hx
      simp only [List.head?_cons, Option.mem_some_iff] at hx
      subst hx
      simpa using hsp

lemma dropWhile_id_of_headNotWs (l : List Char) (h : HeadNotWs l) :
    l.dropWhile pyIsSpace = l := by
  cases l with
  | nil => rfl
  | cons c cs =>
    have := h c (by simp)
    exact List.dropWhile_cons_of_neg (by simp [this])

lemma prefix_headNotWs {l₁ l₂ : List Char} (h : l₁ <+: l₂) (h₂ : HeadNotWs l₂) :
    HeadNotWs l₁ := by
  cases l₁ with
  | nil => exact headNotWs_nil
  | cons a t =>
    intro x hx
    simp only [List.head?_cons, Option.mem_some_iff] at hx
    subst hx
    rcases h with ⟨r, hr⟩
    exact h₂ a (by rw [← hr]; simp)

lemma noAdjWs_of_suffix {l₁ l₂ : List Char} (h : l₁ <:+ l₂) (h₂ : NoAdjWs l₂) :
    NoAdjWs l₁ :=
  List.Chain'.suffix h₂ h

lemma noAdjWs_reverse {l : List Char} (h : NoAdjWs l) : NoAdjWs l.reverse := by
  rw [NoAdjWs, List.chain'_reverse]
  exact h.imp (fun a b hab => fun hc => hab ⟨hc.2, hc.1⟩)

lemma wsBlank_of_sublist {l₁ l₂ : List Char} (h : ∀ c ∈ l₁, c ∈ l₂) (h₂ : WsBlank l₂) :
    WsBlank l₁ :=
  fun c hc hws => h₂ c (h c hc) hws

lemma pyStrip_spec (l : List Char) (hadj : NoAdjWs l) (hbl : WsBlank l) :
    NoAdjWs (pyStrip l) ∧ WsBlank (pyStrip l) ∧ HeadNotWs (pyStrip l) ∧
      HeadNotWs (pyStrip l).reverse := by
  set A := l.dropWhile pyIsSpace with hA
  set X := A.reverse.dropWhile pyIsSpace with hX
  have hmemA : ∀ c ∈ A, c ∈ l := fun c hc => (List.dropWhile_sublist _).mem hc
  have hmemX : ∀ c ∈ X, c ∈ A := by
    intro c hc
    have := (List.dropWhile_sublist (l := A.reverse) pyIsSpace).mem hc
    exact List.mem_reverse.mp this
  have hadjA : NoAdjWs A := noAdjWs_of_suffix (List.dropWhile_suffix _) hadj
  have hadjX : NoAdjWs X := noAdjWs_of_suffix (List.dropWhile_suffix _) (noAdjWs_reverse hadjA)
  have hheadA : HeadNotWs A := headNotWs_dropWhile l
  have hheadX : HeadNotWs X := headNotWs_dropWhile A.reverse
  have hstrip : pyStrip l = X.reverse := by rw [pyStrip]
  have hpre : X.reverse <+: A := by
    have hsuf : X <:+ A.reverse := List.dropWhile_suffix _
    have h2 : X.reverse <+: A.reverse.reverse := List.reverse_prefix.mpr hsuf
    simpa using h2
  refine ⟨?_, ?_, ?_, ?_⟩
  · rw [hstrip]; exact noAdjWs_reverse hadjX
  · rw [hstrip]
    refine wsBlank_of_sublist (fun c hc => ?_) hbl
    exact hmemA c (hpre.sublist.mem hc)
  · rw [hstrip]
    exact prefix_headNotWs hpre hheadA
  · rw [hstrip]
    simpa using hheadX

lemma pyStrip_id (l : List Char) (h1 : HeadNotWs l) (h2 : HeadNotWs l.reverse) :
    pyStrip l = l := by
  rw [pyStrip, dropWhile_id_of_headNotWs l h1, dropWhile_id_of_headNotWs _ h2,
    List.reverse_reverse]

lemma normSpace_idem (l : List Char) : normSpace (normSpace l) = normSpace l := by
  have hc := collapseWsAux_spec l
  have hb := collapseWsAux_blank l false
  have hs := pyStrip_spec (collapseWsAux false l) hc.1 hb
  have hs1 : NoAdjWs (normSpace l) := hs.1
  have hs2 : WsBlank (normSpace l) := hs.2.1
  have hs3 : HeadNotWs (normSpace l) := hs.2.2.1
  have hs4 : HeadNotWs (normSpace l).reverse := hs.2.2.2
  have hid := collapseWsAux_id (normSpace l) hs1 hs2
  show pyStrip (collapseWsAux false (normSpace l)) = normSpace l
  rw [hid.1]
  exact pyStrip_id _ hs3 hs4

/- Lemmas about the alphanumeric filter and characters it keeps. -/

/-- Lists whose characters all belong to the kept class A-Z, 0-9, space. -/
def GoodChars (l : List Char) : Prop := ∀ c ∈ l, isAllowedChar c = true

lemma goodChars_filter (l : List Char) : GoodChars (l.filter isAllowedChar) :=
  fun _ hc => List.of_mem_filter hc

lemma allowed_toNat {c : Char} (h : isAllowedChar c = true) :
    c.toNat = 32 ∨ (48 ≤ c.toNat ∧ c.toNat ≤ 57) ∨ (65 ≤ c.toNat ∧ c.toNat ≤ 90) := by
  simp only [isAllowedChar, Bool.or_eq_true, Bool.and_eq_true, beq_iff_eq,
    decide_eq_true_eq] at h
  omega

lemma good_flatMap_id (l : List Char) (h : GoodChars l) :
    l.flatMap nfkdAsciiChar = l := by
  induction l with
  | nil => rfl
  | cons c cs ih =>
    have hc := allowed_toNat (h c (List.mem_cons_self _ _))
    have h128 : c.toNat < 128 := by omega
    have : nfkdAsciiChar c = [c] := by rw [nfkdAsciiChar, if_pos h128]
    rw [List.flatMap_cons, this, ih (fun x hx => h x (List.mem_cons_of_mem _ hx))]
    rfl

lemma good_map_upper_id (l : List Char) (h : GoodChars l) :
    l.map pyUpperChar = l := by
  induction l with
  | nil => rfl
  | cons c cs ih =>
    have hc := allowed_toNat (h c (List.mem_cons_self _ _))
    have : pyUpperChar c = c := by
      rw [pyUpperChar, if_neg]; omega
    rw [List.map_cons, this, ih (fun x hx => h x (List.mem_cons_of_mem _ hx))]

lemma char_eq_space_of_toNat {c : Char} (h : c.toNat = 32) : c = ' ' :=
  Char.eq_of_val_eq (UInt32.toNat.inj h)

lemma good_wsBlank (l : List Char) (h : GoodChars l) : WsBlank l := by
  intro c hc hws
  have ha := allowed_toNat (h c hc)
  simp only [pyIsSpace, Bool.or_eq_true, beq_iff_eq] at hws
  have h32 : c.toNat = 32 := by omega
  exact char_eq_space_of_toNat h32

lemma good_collapse (l : List Char) (b : Bool) (h : GoodChars l) :
    GoodChars (collapseWsAux b l) := by
  induction l generalizing b with
  | nil => intro c hc; simp [collapseWsAux] at hc
  | cons c cs ih =>
    have hcs : GoodChars cs := fun x hx => h x (List.mem_cons_of_mem _ hx)
    by_cases hsp : pyIsSpace c = true
    · simp only [collapseWsAux, hsp, if_pos]
      cases b with
      | true => exact ih true hcs
      | false =>
        intro x hx
        rcases List.mem_cons.mp hx with h1 | h1
        · subst h1; decide
        · exact ih true hcs x h1
    · simp only [collapseWsAux, hsp]
      intro x hx
      rcases List.mem_cons.mp hx with h1 | h1
      · subst h1; exact h x (List.mem_cons_self _ _)
      · exact ih false hcs x h1

lemma good_pyStrip (l : List Char) (h : GoodChars l) : GoodChars (pyStrip l) := by
  intro c hc
  rw [pyStrip] at hc
  rw [List.mem_reverse] at hc
  have h1 := (List.dropWhile_sublist (l := (l.dropWhile pyIsSpace).reverse) pyIsSpace).mem hc
  rw [List.mem_reverse] at h1
  exact h c ((List.dropWhile_sublist _).mem h1)

lemma good_filter_id (l : List Char) (h : GoodChars l) :
    l.filter isAllowedChar = l :=
  List.filter_eq_self.mpr h

lemma simplify_data (s : String) :
    (simplify s).data =
      (pyStrip (collapseWsAux false ((s.toList.flatMap nfkdAsciiChar).map pyUpperChar))).filter
        isAllowedChar := rfl

lemma simplify_of_good (l : List Char) (h : GoodChars l) :
    simplify (String.mk l) = String.mk (normSpace l) := by
  have htl : (String.mk l).toList = l := rfl
  rw [simplify, htl, good_flatMap_id l h, good_map_upper_id l h]
  have hg : GoodChars (pyStrip (collapseWsAux false l)) :=
    good_pyStrip _ (good_collapse l false h)
  rw [good_filter_id _ hg]
  rfl

lemma goodChars_simplify (s : String) : GoodChars (simplify s).data := by
  rw [simplify_data]
  exact goodChars_filter _

lemma goodChars_normSpace (l : List Char) (h : GoodChars l) : GoodChars (normSpace l) :=
  good_pyStrip _ (good_collapse l false h)

/-- C6 counterexample: simplify is not idempotent.  Removing the dot of
"A ." happens after whitespace is collapsed and stripped, leaving the
trailing space "A ", which a second pass removes. -/
theorem c6_simplify_not_idempotent :
    ¬(simplify (simplify ("A .")) = simplify ("A .")) := by decide

/-- C6 amended: applying simplify twice reaches a fixed point: the double
application of simplify is idempotent, even though a single application
is not. -/
theorem c6_simplify_twice_idempotent (s : String) :
    simplify (simplify (simplify s)) = simplify (simplify s) := by
  have h1 : GoodChars (simplify s).data := goodChars_simplify s
  have hmk : ∀ t : String, String.mk t.data = t := fun t => rfl
  have h2 : simplify (simplify s) = String.mk (normSpace (simplify s).data) := by
    rw [← hmk (simplify s)]
    exact simplify_of_good _ h1
  have h3 : GoodChars (normSpace (simplify s).data) := goodChars_normSpace _ h1
  rw [h2, simplify_of_good _ h3, normSpace_idem]

/- ------------------------------------------------------------------ -/
/- Numeric normalizer: src/domain/transformers/cleaning.py            -/
/- ------------------------------------------------------------------ -/

/-- Inputs of the numeric normalizer: Python None, a string, or an
integer (non-string inputs are first converted with str). -/
inductive PyScalar where
  | pynone : PyScalar
  | pystr (s : String) : PyScalar
  | pyint (n : ℤ) : PyScalar
deriving DecidableEq

/-- Value of the decimal.Decimal constructor: a finite number as sign,
coefficient digits and exponent, an infinity, or a NaN with an optional
digit payload. -/
inductive PyDecimal where
  | finite (sign : Bool) (coeff : List ℕ) (exp : ℤ) : PyDecimal
  | infinite (sign : Bool) : PyDecimal
  | nan (signaling : Bool) (payload : List ℕ) (sign : Bool) : PyDecimal
deriving DecidableEq

def isDigitChar (c : Char) : Bool := 48 ≤ c.toNat && c.toNat ≤ 57

def digitVal (c : Char) : ℕ := c.toNat - 48

/-- ASCII lowercase used for the case-insensitive decimal keywords. -/
def toLowerChar (c : Char) : Char :=
  if 65 ≤ c.toNat ∧ c.toNat ≤ 90 then Char.ofNat (c.toNat + 32) else c

def digitsToNat (ds : List Char) : ℕ := ds.foldl (fun acc c => 10 * acc + digitVal c) 0

/-- Exponent of a decimal literal: an optional sign then at least one
digit. -/
def parseExpPart (l : List Char) : Option ℤ :=
  match l with
  | '+' :: t => if t ≠ [] ∧ t.all isDigitChar then some (digitsToNat t) else none
  | '-' :: t => if t ≠ [] ∧ t.all isDigitChar then some (-(digitsToNat t : ℤ)) else none
  | t => if t ≠ [] ∧ t.all isDigitChar then some (digitsToNat t) else none

/-- Mantissa of a decimal literal, per the decimal module parser: either
digits with an optional dot and optional fraction digits, or a dot
followed by at least one digit.  Returns the digit characters and the
length of the fraction. -/
def parseMantissa (l : List Char) : Option (List Char × ℕ) :=
  match l.splitOn '.' with
  | [ip] => if ip ≠ [] ∧ ip.all isDigitChar then some (ip, 0) else none
  | [ip, fp] =>
    if ip.all isDigitChar ∧ fp.all isDigitChar ∧ (ip ≠ [] ∨ fp ≠ []) then
      some (ip ++ fp, fp.length)
    else none
  | _ => none

/-- Split a list at the first occurrence of a character, keeping the
remainder when the character occurs. -/
def splitFirst (c : Char) : List Char → List Char × Option (List Char)
  | [] => ([], none)
  | x :: xs =>
    if x = c then ([], some xs)
    else
      let r := splitFirst c xs
      (x :: r.1, r.2)

/-- Coefficient normalization of the decimal constructor: the int and
fraction digits are concatenated and converted through int, which drops
leading zeros (an all-zero coefficient becomes the single digit 0). -/
def normalizeCoeff (ds : List ℕ) : List ℕ :=
  match ds.dropWhile (fun d => d == 0) with
  | [] => [0]
  | r => r

/-- Model of the string parser of decimal.Decimal, after the constructor
has stripped whitespace and removed underscores: an optional sign, then
either a mantissa with an optional case-insensitive exponent, Inf or
Infinity, or NaN and sNaN with an optional digit payload. -/
def parseDecimal (l0 : List Char) : Option PyDecimal :=
  let l := l0.filter (fun c => c ≠ '_')
  let sr : Bool × List Char :=
    match l with
    | '+' :: t => (false, t)
    | '-' :: t => (true, t)
    | _ => (false, l)
  let sign := sr.1
  let low := sr.2.map toLowerChar
  if low = ("inf").toList ∨ low = ("infinity").toList then some (.infinite sign)
  else
    match low with
    | 'n' :: 'a' :: 'n' :: t =>
      if t.all isDigitChar then some (.nan false (t.map digitVal) sign) else none
    | 's' :: 'n' :: 'a' :: 'n' :: t =>
      if t.all isDigitChar then some (.nan true (t.map digitVal) sign) else none
    | _ =>
      let sp := splitFirst 'e' low
      match sp.2 with
      | none =>
        match parseMantissa sp.1 with
        | some (ds, fl) => some (.finite sign (normalizeCoeff (ds.map digitVal)) (-(fl : ℤ)))
        | none => none
      | some et =>
        match parseMantissa sp.1, parseExpPart et with
        | some (ds, fl), some e =>
          some (.finite sign (normalizeCoeff (ds.map digitVal)) (e - (fl : ℤ)))
        | _, _ => none

def digitsToChars (ds : List ℕ) : List Char := ds.map (fun d => Char.ofNat (48 + d))

def natChars (n : ℕ) : List Char := (toString n).toList

def expChars (e : ℤ) : List Char :=
  if 0 ≤ e then '+' :: natChars e.toNat else '-' :: natChars (-e).toNat

def signedChars (sign : Bool) (body : List Char) : String :=
  String.mk ((if sign then ['-'] else []) ++ body)

/-- Model of the str conversion of a Decimal value, following the
to-scientific-string algorithm of the decimal module: fixed notation
when the exponent is non-positive and the adjusted exponent is at least
minus six, scientific notation otherwise. -/
def renderDecimal : PyDecimal → String
  | .infinite sign => signedChars sign (("Infinity").toList)
  | .nan sig payload sign =>
    signedChars sign ((if sig then ("sNaN").toList else ("NaN").toList) ++ digitsToChars payload)
  | .finite sign ds exp =>
    let n : ℤ := (ds.length : ℤ)
    let leftdigits : ℤ := exp + n
    let dotplace : ℤ := if exp ≤ 0 ∧ -6 < leftdigits then leftdigits else 1
    let intpart : List Char :=
      if dotplace ≤ 0 then ['0']
      else if n ≤ dotplace then digitsToChars ds ++ List.replicate (dotplace - n).toNat '0'
      else digitsToChars (ds.take dotplace.toNat)
    let fracpart : List Char :=
      if dotplace ≤ 0 then '.' :: (List.replicate (-dotplace).toNat '0' ++ digitsToChars ds)
      else if n ≤ dotplace then []
      else '.' :: digitsToChars (ds.drop dotplace.toNat)
    let exppart : List Char :=
      if leftdigits = dotplace then [] else 'E' :: expChars (leftdigits - dotplace)
    signedChars sign (intpart ++ fracpart ++ exppart)

def pyReplaceCommaDot (s : String) : String :=
  String.mk (s.toList.map (fun c => if c = ',' then '.' else c))

def pyStripStr (s : String) : String := String.mk (pyStrip s.toList)

/-- Embedding of the helper _normalize_numeric_value on an already
string-converted value: strip whitespace, turn commas into dots, map the
empty string to "0", and otherwise parse with decimal.Decimal and render
back, returning "0" when parsing fails. -/
def normalizeNumericGo (s : String) : String :=
  let v := pyReplaceCommaDot (pyStripStr s)
  if v = ("") then ("0")
  else
    match parseDecimal v.toList with
    | some d => renderDecimal d
    | none => ("0")

/-- Embedding of _normalize_numeric_value: None maps to "0", non-strings
go through str first, and strings are normalized by the helper. -/
def normalizeNumericValue : PyScalar → String
  | .pynone => ("0")
  | .pystr s => normalizeNumericGo s
  | .pyint n => normalizeNumericGo (toString n)

example : normalizeNumericValue (.pystr (" 12,5 ")) = ("12.5") := by decide

example : normalizeNumericValue (.pystr ("1.234,5")) = ("0") := by decide

example : normalizeNumericValue (.pystr ("0")) = ("0") := by decide

lemma pyStrip_nil_of_all_ws (l : List Char) (h : ∀ c ∈ l, pyIsSpace c = true) :
    pyStrip l = [] := by
  have h1 : l.dropWhile pyIsSpace = [] := by
    induction l with
    | nil => rfl
    | cons c cs ih =>
      rw [List.dropWhile_cons_of_pos (h c (List.mem_cons_self _ _))]
      exact ih (fun x hx => h x (List.mem_cons_of_mem _ hx))
  rw [pyStrip, h1]
  rfl

lemma dropWhile_map_comm (f : Char → Char) (l : List Char)
    (hf : ∀ c, pyIsSpace (f c) = pyIsSpace c) :
    (l.map f).dropWhile pyIsSpace = (l.dropWhile pyIsSpace).map f := by
  induction l with
  | nil => rfl
  | cons c cs ih =>
    by_cases hsp : pyIsSpace c = true
    · rw [List.map_cons, List.dropWhile_cons_of_pos (by rw [hf]; exact hsp),
        List.dropWhile_cons_of_pos hsp]
      exact ih
    · rw [Bool.not_eq_true] at hsp
      rw [List.map_cons, List.dropWhile_cons_of_neg (by simp [hf, hsp]),
        List.dropWhile_cons_of_neg (by simp [hsp])]
      rfl

lemma pyStrip_map_comm (f : Char → Char) (l : List Char)
    (hf : ∀ c, pyIsSpace (f c) = pyIsSpace c) :
    pyStrip (l.map f) = (pyStrip l).map f := by
  rw [pyStrip, pyStrip, dropWhile_map_comm f l hf, ← List.map_reverse,
    dropWhile_map_comm f _ hf, ← List.map_reverse]

/-- The comma-to-dot character substitution. -/
def commaDotChar (c : Char) : Char := if c = ',' then '.' else c

lemma commaDotChar_ws (c : Char) : pyIsSpace (commaDotChar c) = pyIsSpace c := by
  rw [commaDotChar]
  by_cases h : c = ','
  · rw [if_pos h, h]; decide
  · rw [if_neg h]

lemma commaDotChar_idem (c : Char) : commaDotChar (commaDotChar c) = commaDotChar c := by
  by_cases h : c = ','
  · rw [h]; decide
  · have h1 : commaDotChar c = c := if_neg h
    rw [h1, h1]

lemma pyReplaceCommaDot_data (s : String) :
    (pyReplaceCommaDot s).toList = s.toList.map commaDotChar := rfl

lemma pyStripStr_data (s : String) : (pyStripStr s).toList = pyStrip s.toList := rfl

lemma strip_replace_comm (s : String) :
    pyStripStr (pyReplaceCommaDot s) = pyReplaceCommaDot (pyStripStr s) := by
  show String.mk (pyStrip (s.toList.map commaDotChar)) =
    String.mk ((pyStrip s.toList).map commaDotChar)
  rw [pyStrip_map_comm commaDotChar s.toList commaDotChar_ws]

lemma replace_idem (s : String) :
    pyReplaceCommaDot (pyReplaceCommaDot s) = pyReplaceCommaDot s := by
  show String.mk ((s.toList.map commaDotChar).map commaDotChar) =
    String.mk (s.toList.map commaDotChar)
  rw [List.map_map]
  congr 1
  exact List.map_congr_left (fun c _ => commaDotChar_idem c)

lemma dropWhile_append_singleton (l : List Char) :
    (l ++ [' ']).dropWhile pyIsSpace =
      if l.dropWhile pyIsSpace = [] then [] else l.dropWhile pyIsSpace ++ [' '] := by
  induction l with
  | nil =>
    rw [List.nil_append, List.dropWhile_cons_of_pos (by decide)]
    simp
  | cons c cs ih =>
    by_cases hsp : pyIsSpace c = true
    · rw [List.cons_append, List.dropWhile_cons_of_pos hsp, ih,
        List.dropWhile_cons_of_pos hsp]
    · rw [Bool.not_eq_true] at hsp
      rw [List.cons_append, List.dropWhile_cons_of_neg (by simp [hsp]),
        List.dropWhile_cons_of_neg (by simp [hsp])]
      simp

lemma pyStrip_cons_space (l : List Char) : pyStrip (' ' :: l) = pyStrip l := by
  rw [pyStrip, pyStrip, List.dropWhile_cons_of_pos (by decide)]

lemma pyStrip_append_space (l : List Char) : pyStrip (l ++ [' ']) = pyStrip l := by
  rw [pyStrip, pyStrip, dropWhile_append_singleton]
  by_cases h : l.dropWhile pyIsSpace = []
  · rw [if_pos h, h]
  · rw [if_neg h, List.reverse_append]
    rw [show ([' '] : List Char).reverse = [' '] from rfl, List.singleton_append]
    rw [List.dropWhile_cons_of_pos (by decide)]

lemma string_append_data (a b : String) : (a ++ b).toList = a.toList ++ b.toList := by
  cases a; cases b; rfl

/-- C7: the numeric normalizer accepts comma or dot decimal separators
and surrounding whitespace, never raises (it is a total function), and
returns the string "0" on None, on whitespace-only or empty input, and
on input the decimal parser rejects. -/
theorem c7_normalize_numeric_robust :
    normalizeNumericValue PyScalar.pynone = ("0")
    ∧ (∀ s : String, (∀ c ∈ s.toList, pyIsSpace c = true) →
        normalizeNumericValue (.pystr s) = ("0"))
    ∧ (∀ s : String,
        parseDecimal (pyReplaceCommaDot (pyStripStr s)).toList = none →
          normalizeNumericValue (.pystr s) = ("0"))
    ∧ (∀ s : String, normalizeNumericValue (.pystr (pyReplaceCommaDot s)) =
        normalizeNumericValue (.pystr s))
    ∧ (∀ s : String, normalizeNumericValue (.pystr ((" ") ++ s ++ (" "))) =
        normalizeNumericValue (.pystr s)) := by
  have hgo : ∀ s : String, normalizeNumericGo s =
      (if pyReplaceCommaDot (pyStripStr s) = ("") then ("0")
       else
         match parseDecimal (pyReplaceCommaDot (pyStripStr s)).toList with
         | some d => renderDecimal d
         | none => ("0")) := fun s => rfl
  refine ⟨rfl, ?_, ?_, ?_, ?_⟩
  · intro s hws
    show normalizeNumericGo s = ("0")
    rw [hgo]
    have h1 : pyStrip s.toList = [] := pyStrip_nil_of_all_ws _ hws
    have h2 : pyReplaceCommaDot (pyStripStr s) = ("") := by
      show String.mk ((pyStrip s.toList).map commaDotChar) = ("")
      rw [h1]
      rfl
    rw [if_pos h2]
  · intro s hp
    show normalizeNumericGo s = ("0")
    rw [hgo]
    by_cases h : pyReplaceCommaDot (pyStripStr s) = ("")
    · rw [if_pos h]
    · rw [if_neg h, hp]
  · intro s
    show normalizeNumericGo (pyReplaceCommaDot s) = normalizeNumericGo s
    rw [hgo, hgo, strip_replace_comm, replace_idem]
  · intro s
    show normalizeNumericGo ((" ") ++ s ++ (" ")) = normalizeNumericGo s
    rw [hgo, hgo]
    have hdata : ((" ") ++ s ++ (" ")).toList = ' ' :: s.toList ++ [' '] := by
      rw [string_append_data, string_append_data]
      rfl
    have hstrip : pyStripStr ((" ") ++ s ++ (" ")) = pyStripStr s := by
      show String.mk (pyStrip (((" ") ++ s ++ (" ")).toList)) = String.mk (pyStrip s.toList)
      rw [hdata]
      rw [show (' ' :: s.toList ++ [' ']) = ' ' :: (s.toList ++ [' ']) from rfl]
      rw [pyStrip_cons_space, pyStrip_append_space]
    rw [hstrip]

/-- C7 witness: concrete instances of the robustness theorem. -/
theorem c7_witness :
    normalizeNumericValue (.pystr ("   ")) = ("0")
    ∧ normalizeNumericValue (.pystr (" abc ")) = ("0")
    ∧ normalizeNumericValue (.pystr ("3,25")) = normalizeNumericValue (.pystr ("3.25")) := by
  have h := c7_normalize_numeric_robust
  refine ⟨h.2.1 ("   ") (by decide), h.2.2.1 (" abc ") (by decide), ?_⟩
  have h4 := h.2.2.2.1 ("3,25")
  have : pyReplaceCommaDot ("3,25") = ("3.25") := by decide
  rw [this] at h4
  exact h4

/- ------------------------------------------------------------------ -/
/- Article 272 apportionment: src/domain/enrichers/ediles_272.py      -/
/- ------------------------------------------------------------------ -/

/-- Walk of np.argmax carrying the running position, the index of the
current best and its value; a later value replaces the best only when it
is strictly greater, so the first maximum wins. -/
def argmaxGo : List ℤ → ℕ → ℕ × ℤ → ℕ × ℤ
  | [], _, b => b
  | v :: vs, i, b => if b.2 < v then argmaxGo vs (i + 1) (i, v) else argmaxGo vs (i + 1) b

/-- Model of np.argmax: the index of the first occurrence of the maximum
value of the list. -/
def argmaxIdx : List ℤ → ℕ
  | [] => 0
  | v :: vs => (argmaxGo vs 1 (0, v)).1

/-- Relation ordering quotient-index pairs by descending quotient.  It
models the descending selection np.argsort(...)[::-1]; the relative order
of equal quotients is unspecified by the unstable numpy sort and is fixed
here as flattened-index order.  The theorems below do not depend on the
order of ties. -/
def qIdxGe (a b : ℚ × ℕ) : Prop := b.1 ≤ a.1

instance : DecidableRel qIdxGe := fun a b => inferInstanceAs (Decidable (b.1 ≤ a.1))

instance : IsTotal (ℚ × ℕ) qIdxGe := ⟨fun a b => le_total b.1 a.1⟩

instance : IsTrans (ℚ × ℕ) qIdxGe := ⟨fun _ _ _ h1 h2 => le_trans h2 h1⟩

/-- Quotient matrix of the DHondt computation flattened in row-major
order exactly like the numpy matrix: entry (i, j) holds the exact
rational quotient of the votes of lema i by j+1 (the value of the float
division), paired with its flattened index i*k + j. -/
def cocientesFlat (vals : List ℤ) (k : ℕ) : List (ℚ × ℕ) :=
  vals.enum.flatMap
    (fun p => (List.range k).map (fun j => (Rat.divInt p.2 (Int.ofNat (j + 1)), p.1 * k + j)))

/-- Flattened indices of the m largest quotients in descending order of
quotient. -/
def topIdx (flat : List (ℚ × ℕ)) (m : ℕ) : List ℕ :=
  ((List.insertionSort qIdxGe flat).take m).map Prod.snd

/-- Seats per lema obtained from a selection of flattened quotient
indices: the lema of flattened index x is x / k. -/
def bucketCounts (n k : ℕ) (sel : List ℕ) : List ℕ :=
  (List.range n).map (fun i => sel.countP (fun x => x / k == i))

/-- Assignment of one key of a Python dict modelled as an association
list in insertion order: an existing key keeps its position and receives
the new value, a new key is appended at the end. -/
def pyDictSet {α : Type} (d : List (String × α)) (k : String) (v : α) : List (String × α) :=
  if d.any (fun p => p.1 == k) then
    d.map (fun p => if p.1 == k then (p.1, v) else p)
  else d ++ [(k, v)]

/-- Python dict built from a sequence of key-value pairs (the dict
comprehension): later pairs overwrite earlier ones. -/
def pyDictOfPairs {α : Type} (l : List (String × α)) : List (String × α) :=
  l.foldl (fun d p => pyDictSet d p.1 p.2) []

/-- Python dict upsert-add pattern (if key in dict: add, else insert). -/
def pyDictAdd {α : Type} [Add α] (d : List (String × α)) (k : String) (v : α) :
    List (String × α) :=
  if d.any (fun p => p.1 == k) then
    d.map (fun p => if p.1 == k then (p.1, p.2 + v) else p)
  else d ++ [(k, v)]

/-- Override step of ediles_por_lema: the winner at index ig is assigned
exactly the automatic majority; when the other lemas originally held
seats and seats remain, those remaining seats are redistributed by a
DHondt selection restricted to the non-winning lemas (whose quotient
matrix again has totalEdiles columns, flattened row-major); the relative
row index is mapped back through the list of non-winner indices. -/
def edilesOverride (votos : List ℤ) (totalEdiles mayoriaAuto ig : ℕ) (dh : List ℕ) :
    List ℕ :=
  let n := votos.length
  let otrosIdx := (List.range n).filter (fun i => i ≠ ig)
  let edilesOtrosOriginal := ((dh.enum.filter (fun p => p.1 ≠ ig)).map Prod.snd).sum
  let edilesRestantes := totalEdiles - mayoriaAuto
  if 0 < edilesOtrosOriginal ∧ 0 < edilesRestantes then
    let valsOtros := otrosIdx.map (fun i => votos.getD i 0)
    let selOtros := topIdx (cocientesFlat valsOtros totalEdiles) edilesRestantes
    (List.range n).map (fun i =>
      if i = ig then mayoriaAuto
      else selOtros.countP (fun x => otrosIdx.getD (x / totalEdiles) n == i))
  else
    (List.range n).map (fun i => if i = ig then mayoriaAuto else 0)

/-- Main branch of ediles_por_lema for two or more lemas: full DHondt
distribution over all lemas, kept when the most voted lema reaches the
automatic majority, otherwise replaced by the override distribution. -/
def edilesPorLemaMulti (votosPorLema : List (String × ℤ)) (totalEdiles mayoriaAuto : ℕ) :
    List (String × ℕ) :=
  let lemas := votosPorLema.map Prod.fst
  let votos := votosPorLema.map Prod.snd
  let n := lemas.length
  let indiceGanador := argmaxIdx votos
  let edilesDhondt := bucketCounts n totalEdiles (topIdx (cocientesFlat votos totalEdiles) totalEdiles)
  if edilesDhondt.getD indiceGanador 0 < mayoriaAuto then
    pyDictOfPairs
      (lemas.zip (edilesOverride votos totalEdiles mayoriaAuto indiceGanador edilesDhondt))
  else
    pyDictOfPairs (lemas.zip edilesDhondt)

/-- Embedding of ediles_por_lema: the Article 272 seat distribution.  An
empty mapping yields an empty result; a single lema takes every seat;
otherwise see edilesPorLemaMulti.  The source calls this with the
defaults (31, 16) for departments and (5, 3) for municipalities. -/
def edilesPorLema (votosPorLema : List (String × ℤ)) (totalEdiles mayoriaAuto : ℕ) :
    List (String × ℕ) :=
  match votosPorLema with
  | [] => []
  | [p] => [(p.1, totalEdiles)]
  | _ :: _ :: _ => edilesPorLemaMulti votosPorLema totalEdiles mayoriaAuto

example :
    edilesPorLema [(("A"), (61 : ℤ)), (("B"), 30), (("C"), 9)] 5 3 =
      [(("A"), 4), (("B"), 1), (("C"), 0)] := by decide

example :
    edilesPorLema [(("A"), (40 : ℤ)), (("B"), 35), (("C"), 25)] 5 3 =
      [(("A"), 3), (("B"), 1), (("C"), 1)] := by decide

example : edilesPorLema [(("A"), (100 : ℤ))] 31 16 = [(("A"), 31)] := by decide

example : edilesPorLema [] 31 16 = [] := by decide

/- Lemmas about argmax, the quotient selection and the dict model. -/

lemma argmaxGo_spec (vs : List ℤ) : ∀ (i : ℕ) (b : ℕ × ℤ),
    (argmaxGo vs i b = b ∨
      ∃ j, j < vs.length ∧ argmaxGo vs i b = (i + j, vs.getD j 0)) ∧
    b.2 ≤ (argmaxGo vs i b).2 ∧ ∀ v ∈ vs, v ≤ (argmaxGo vs i b).2 := by
  induction vs with
  | nil =>
    intro i b
    exact ⟨Or.inl rfl, le_refl _, by intro v hv; simp at hv⟩
  | cons v vs ih =>
    intro i b
    by_cases hb : b.2 < v
    · have hunf : argmaxGo (v :: vs) i b = argmaxGo vs (i + 1) (i, v) := by
        simp [argmaxGo, hb]
      obtain ⟨hsh, hval, hall⟩ := ih (i + 1) (i, v)
      rw [hunf]
      refine ⟨?_, ?_, ?_⟩
      · rcases hsh with h | ⟨j, hj, heq⟩
        · refine Or.inr ⟨0, by simp, ?_⟩
          rw [h]
          simp
        · refine Or.inr ⟨j + 1, by simpa using Nat.succ_lt_succ hj, ?_⟩
          rw [heq]
          have : i + 1 + j = i + (j + 1) := by omega
          rw [this]
          rfl
      · exact le_trans (le_of_lt hb) hval
      · intro x hx
        rcases List.mem_cons.mp hx with h | h
        · subst h; exact hval
        · exact hall x h
    · have hunf : argmaxGo (v :: vs) i b = argmaxGo vs (i + 1) b := by
        simp [argmaxGo, hb]
      obtain ⟨hsh, hval, hall⟩ := ih (i + 1) b
      rw [hunf]
      refine ⟨?_, hval, ?_⟩
      · rcases hsh with h | ⟨j, hj, heq⟩
        · exact Or.inl h
        · refine Or.inr ⟨j + 1, by simpa using Nat.succ_lt_succ hj, ?_⟩
          rw [heq]
          have : i + 1 + j = i + (j + 1) := by omega
          rw [this]
          rfl
      · intro x hx
        rcases List.mem_cons.mp hx with h | h
        · subst h
          exact le_trans (not_lt.mp hb) hval
        · exact hall x h

lemma argmaxIdx_spec (l : List ℤ) (hne : l ≠ []) :
    argmaxIdx l < l.length ∧
      ∀ v ∈ l, v ≤ l.getD (argmaxIdx l) 0 := by
  match l with
  | [] => exact absurd rfl hne
  | v :: vs =>
    obtain ⟨hsh, hval, hall⟩ := argmaxGo_spec vs 1 (0, v)
    have hidx : argmaxIdx (v :: vs) = (argmaxGo vs 1 (0, v)).1 := rfl
    have hgd : (v :: vs).getD (argmaxGo vs 1 (0, v)).1 0 = (argmaxGo vs 1 (0, v)).2 := by
      rcases hsh with h | ⟨j, hj, heq⟩
      · rw [h]
        rfl
      · rw [heq]
        have h1j : 1 + j = j + 1 := by omega
        show (v :: vs).getD (1 + j) 0 = vs.getD j 0
        rw [h1j, List.getD_cons_succ]
    constructor
    · rw [hidx]
      rcases hsh with h | ⟨j, hj, heq⟩
      · rw [h]
        simp
      · rw [heq]
        show 1 + j < (v :: vs).length
        rw [List.length_cons]
        omega
    · intro x hx
      rw [hidx, hgd]
      rcases List.mem_cons.mp hx with h | h
      · subst h; exact hval
      · exact hall x h

lemma listSumRange (f : ℕ → ℕ) (n : ℕ) :
    ((List.range n).map f).sum = ∑ i ∈ Finset.range n, f i := by
  induction n with
  | zero => simp
  | succ m ih =>
    rw [List.range_succ, List.map_append, List.sum_append, Finset.sum_range_succ, ih]
    simp

lemma sum_countP_buckets (g : ℕ → ℕ) (n : ℕ) (sel : List ℕ) (h : ∀ x ∈ sel, g x < n) :
    (∑ i ∈ Finset.range n, (sel.countP (fun x => g x == i))) = sel.length := by
  induction sel with
  | nil => simp
  | cons x t ih =>
    have hx : g x < n := h x (List.mem_cons_self _ _)
    have ht : ∀ y ∈ t, g y < n := fun y hy => h y (List.mem_cons_of_mem _ hy)
    simp only [List.countP_cons]
    rw [Finset.sum_add_distrib, ih ht]
    have hone : (∑ i ∈ Finset.range n, if (g x == i) = true then 1 else 0) = 1 := by
      have hcongr : ∀ i ∈ Finset.range n,
          (if (g x == i) = true then 1 else 0) = (if i = g x then 1 else 0) := by
        intro i _
        by_cases hi : i = g x
        · subst hi; simp
        · rw [if_neg hi, if_neg]
          simp [beq_iff_eq]
          omega
      rw [Finset.sum_congr rfl hcongr, Finset.sum_ite_eq' (Finset.range n) (g x) (fun _ => 1),
        if_pos (Finset.mem_range.mpr hx)]
    rw [hone]
    simp [List.length_cons]

lemma bucketCounts_length (n k : ℕ) (sel : List ℕ) : (bucketCounts n k sel).length = n := by
  rw [bucketCounts, List.length_map, List.length_range]

lemma bucketCounts_sum (n k : ℕ) (sel : List ℕ) (h : ∀ x ∈ sel, x / k < n) :
    (bucketCounts n k sel).sum = sel.length := by
  rw [bucketCounts, listSumRange]
  exact sum_countP_buckets (fun x => x / k) n sel h

lemma mem_enumFrom_spec {α : Type} :
    ∀ (l : List α) (i : ℕ) (p : ℕ × α), p ∈ l.enumFrom i → i ≤ p.1 ∧ p.1 < i + l.length
  | [], _, p => by intro h; simp [List.enumFrom] at h
  | a :: t, i, p => by
    intro h
    rcases List.mem_cons.mp h with h1 | h1
    · subst h1
      simp
    · have := mem_enumFrom_spec t (i + 1) p h1
      constructor
      · omega
      · simp only [List.length_cons]
        omega

lemma length_flatMap_const {α β : Type} (l : List α) (f : α → List β) (k : ℕ)
    (h : ∀ a ∈ l, (f a).length = k) : (l.flatMap f).length = l.length * k := by
  induction l with
  | nil => simp
  | cons a t ih =>
    rw [List.flatMap_cons, List.length_append, h a (List.mem_cons_self _ _),
      ih (fun x hx => h x (List.mem_cons_of_mem _ hx)), List.length_cons]
    ring

lemma cocientesFlat_length (vals : List ℤ) (k : ℕ) :
    (cocientesFlat vals k).length = vals.length * k := by
  rw [cocientesFlat, length_flatMap_const _ _ k (fun p _ => by
    rw [List.length_map, List.length_range])]
  rw [List.enum_length]

lemma cocientesFlat_snd_bound (vals : List ℤ) (k : ℕ) (q : ℚ × ℕ)
    (hq : q ∈ cocientesFlat vals k) (hk : 0 < k) : q.2 / k < vals.length := by
  rw [cocientesFlat, List.mem_flatMap] at hq
  obtain ⟨p, hp, hq2⟩ := hq
  rw [List.mem_map] at hq2
  obtain ⟨j, hj, rfl⟩ := hq2
  rw [List.mem_range] at hj
  have hp1 : p.1 < vals.length := by
    have := mem_enumFrom_spec vals 0 p hp
    omega
  show (p.1 * k + j) / k < vals.length
  rw [Nat.mul_comm, Nat.mul_add_div hk]
  have : j / k = 0 := Nat.div_eq_of_lt hj
  omega

lemma topIdx_length (flat : List (ℚ × ℕ)) (m : ℕ) :
    (topIdx flat m).length = min m flat.length := by
  rw [topIdx, List.length_map, List.length_take, List.length_insertionSort]

lemma topIdx_mem {flat : List (ℚ × ℕ)} {m : ℕ} {x : ℕ} (hx : x ∈ topIdx flat m) :
    ∃ q ∈ flat, q.2 = x := by
  rw [topIdx, List.mem_map] at hx
  obtain ⟨q, hq, rfl⟩ := hx
  have h1 : q ∈ List.insertionSort qIdxGe flat := List.take_subset _ _ hq
  exact ⟨q, (List.perm_insertionSort qIdxGe flat).mem_iff.mp h1, rfl⟩

lemma pyDictSet_append_of_not_mem {α : Type} (d : List (String × α)) (k : String) (v : α)
    (h : ∀ p ∈ d, p.1 ≠ k) : pyDictSet d k v = d ++ [(k, v)] := by
  rw [pyDictSet, if_neg]
  simp only [List.any_eq_true, beq_iff_eq, not_exists]
  intro p
  intro hcontra
  exact h p hcontra.1 hcontra.2

lemma pyDictOfPairs_go {α : Type} :
    ∀ (l acc : List (String × α)), ((acc ++ l).map Prod.fst).Nodup →
      List.foldl (fun d p => pyDictSet d p.1 p.2) acc l = acc ++ l
  | [], acc, _ => by simp
  | p :: t, acc, h => by
    rw [List.foldl_cons]
    have hset : pyDictSet acc p.1 p.2 = acc ++ [p] := by
      rw [pyDictSet_append_of_not_mem]
      intro q hq
      rw [List.map_append, List.nodup_append] at h
      have hqm : q.1 ∈ acc.map Prod.fst := List.mem_map_of_mem _ hq
      have hpm : p.1 ∈ (p :: t).map Prod.fst := by simp
      exact fun he => h.2.2 hqm (he ▸ hpm)
    rw [hset]
    have hre : ((acc ++ [p]) ++ t).map Prod.fst = ((acc ++ p :: t)).map Prod.fst := by
      simp
    have := pyDictOfPairs_go t (acc ++ [p]) (by rw [hre]; exact h)
    rw [this]
    simp

lemma pyDictOfPairs_eq_self {α : Type} (l : List (String × α))
    (h : (l.map Prod.fst).Nodup) : pyDictOfPairs l = l := by
  have := pyDictOfPairs_go l [] (by simpa using h)
  rw [pyDictOfPairs, this]
  simp

lemma sum_filter_enumFrom :
    ∀ (L : List ℕ) (k i0 : ℕ), k ≤ i0 → i0 - k < L.length →
      (((L.enumFrom k).filter (fun p => p.1 ≠ i0)).map Prod.snd).sum + L.getD (i0 - k) 0 =
        L.sum
  | [], k, i0 => by intro h1 h2; simp at h2
  | a :: t, k, i0 => by
    intro h1 h2
    have hunf : (a :: t).enumFrom k = (k, a) :: t.enumFrom (k + 1) := rfl
    rw [hunf]
    by_cases h0 : i0 = k
    · rw [h0]
      rw [List.filter_cons_of_neg (by simp)]
      have hall : (t.enumFrom (k + 1)).filter (fun p => p.1 ≠ k) = t.enumFrom (k + 1) := by
        apply List.filter_eq_self.mpr
        intro p hp
        have := mem_enumFrom_spec t (k + 1) p hp
        simp only [ne_eq, decide_eq_true_eq]
        omega
      rw [hall, Nat.sub_self]
      have hsnd : ((t.enumFrom (k + 1)).map Prod.snd) = t := List.enumFrom_map_snd _ _
      rw [hsnd, List.getD_cons_zero, List.sum_cons]
      omega
    · rw [List.filter_cons_of_pos (by simp; omega)]
      have h1' : k + 1 ≤ i0 := by omega
      have h2' : i0 - (k + 1) < t.length := by
        simp only [List.length_cons] at h2
        omega
      have ih := sum_filter_enumFrom t (k + 1) i0 h1' h2'
      have hgd : (a :: t).getD (i0 - k) 0 = t.getD (i0 - (k + 1)) 0 := by
        have : i0 - k = (i0 - (k + 1)) + 1 := by omega
        rw [this, List.getD_cons_succ]
      rw [hgd, List.map_cons, List.sum_cons, List.sum_cons]
      omega

lemma sum_filter_enum (L : List ℕ) (i0 : ℕ) (h : i0 < L.length) :
    (((L.enum.filter (fun p => p.1 ≠ i0))).map Prod.snd).sum + L.getD i0 0 = L.sum := by
  have := sum_filter_enumFrom L 0 i0 (Nat.zero_le _) (by simpa using h)
  simpa [List.enum] using this

lemma lookup_zip {β : Type} (dflt : β) :
    ∀ (ks : List String) (xs : List β) (i : ℕ), ks.Nodup → ks.length = xs.length →
      i < ks.length →
      (ks.zip xs).lookup (ks.getD i ("")) = some (xs.getD i dflt)
  | [], _, i => by intro _ _ h; simp at h
  | k0 :: kt, [], i => by intro _ hlen _; simp at hlen
  | k0 :: kt, x0 :: xt, 0 => by
    intro _ _ _
    simp [List.lookup]
  | k0 :: kt, x0 :: xt, i + 1 => by
    intro hnd hlen hi
    have hki : kt.getD i ("") ∈ kt := by
      have hi' : i < kt.length := by simpa using hi
      rw [List.getD_eq_getElem _ _ hi']
      exact List.getElem_mem _
    have hne : (kt.getD i ("") == k0) = false := by
      rw [beq_eq_false_iff_ne]
      intro he
      rw [List.nodup_cons] at hnd
      exact hnd.1 (he ▸ hki)
    rw [List.getD_cons_succ, List.getD_cons_succ]
    show List.lookup (kt.getD i ("")) ((k0, x0) :: kt.zip xt) = _
    rw [List.lookup_cons]
    rw [hne]
    exact lookup_zip dflt kt xt i (List.nodup_cons.mp hnd).2 (by simpa using hlen)
      (by simpa using hi)

lemma length_filter_ne_range (n ig : ℕ) (h : ig < n) :
    ((List.range n).filter (fun i => i ≠ ig)).length = n - 1 := by
  induction n with
  | zero => omega
  | succ m ih =>
    rw [List.range_succ, List.filter_append]
    by_cases hm : ig = m
    · have h1 : (List.range m).filter (fun i => i ≠ ig) = List.range m := by
        apply List.filter_eq_self.mpr
        intro a ha
        rw [List.mem_range] at ha
        simp only [ne_eq, decide_eq_true_eq]
        omega
      have h2 : ([m].filter (fun i => i ≠ ig)) = [] := by
        rw [List.filter_cons_of_neg (by simp [hm])]
        rfl
      rw [h1, h2, List.append_nil, List.length_range]
      omega
    · have hlt : ig < m := by omega
      have h2 : ([m].filter (fun i => i ≠ ig)) = [m] := by
        rw [List.filter_cons_of_pos (by simp; omega)]
        rfl
      rw [h2, List.length_append, ih hlt]
      simp only [List.length_cons, List.length_nil]
      omega

lemma mem_filter_ne_range {n ig i : ℕ} :
    i ∈ (List.range n).filter (fun j => j ≠ ig) ↔ i < n ∧ i ≠ ig := by
  simp [List.mem_filter, List.mem_range]

lemma cocientesFlat_snd_div_lt (vals : List ℤ) (k : ℕ) (q : ℚ × ℕ)
    (hq : q ∈ cocientesFlat vals k) : q.2 / k < vals.length := by
  rcases Nat.eq_zero_or_pos k with hk | hk
  · subst hk
    have h0 : (cocientesFlat vals 0).length = 0 := by
      rw [cocientesFlat_length]
      omega
    rw [List.eq_nil_of_length_eq_zero h0] at hq
    simp at hq
  · exact cocientesFlat_snd_bound vals k q hq hk

lemma getD_map_range (f : ℕ → ℕ) (n i : ℕ) (h : i < n) :
    ((List.range n).map f).getD i 0 = f i := by
  rw [List.getD_eq_getElem _ _ (by simp [h])]
  rw [List.getElem_map, List.getElem_range]

lemma edilesOverride_length (votos : List ℤ) (total mayoria ig : ℕ) (dh : List ℕ) :
    (edilesOverride votos total mayoria ig dh).length = votos.length := by
  simp only [edilesOverride]
  split
  · rw [List.length_map, List.length_range]
  · rw [List.length_map, List.length_range]

lemma edilesOverride_getD_ig (votos : List ℤ) (total mayoria ig : ℕ) (dh : List ℕ)
    (hig : ig < votos.length) :
    (edilesOverride votos total mayoria ig dh).getD ig 0 = mayoria := by
  simp only [edilesOverride]
  split
  · rw [getD_map_range _ _ _ hig, if_pos rfl]
  · rw [getD_map_range _ _ _ hig, if_pos rfl]

lemma edilesOverride_sum (votos : List ℤ) (total mayoria ig : ℕ) (dh : List ℕ)
    (h2 : 2 ≤ votos.length) (hig : ig < votos.length) (hval : mayoria ≤ total)
    (hlen : dh.length = votos.length) (hsum : dh.sum = total)
    (hdig : dh.getD ig 0 < mayoria) :
    (edilesOverride votos total mayoria ig dh).sum = total := by
  have hfil := sum_filter_enum dh ig (by rw [hlen]; exact hig)
  have hOO : 0 < ((dh.enum.filter (fun p => p.1 ≠ ig)).map Prod.snd).sum := by omega
  simp only [edilesOverride]
  by_cases hres : 0 < total - mayoria
  · rw [if_pos ⟨hOO, hres⟩]
    set otros := (List.range votos.length).filter (fun i => i ≠ ig) with hotros
    set valsOtros := otros.map (fun i => votos.getD i 0) with hvals
    set selO := topIdx (cocientesFlat valsOtros total) (total - mayoria) with hselO
    have holen : otros.length = votos.length - 1 := by
      rw [hotros, length_filter_ne_range _ _ hig]
    have hvlen : valsOtros.length = votos.length - 1 := by
      rw [hvals, List.length_map, holen]
    have hbound : ∀ x ∈ selO, otros.getD (x / total) votos.length < votos.length ∧
        otros.getD (x / total) votos.length ≠ ig := by
      intro x hx
      obtain ⟨q, hqf, hq2⟩ := topIdx_mem hx
      have hdiv : x / total < otros.length := by
        have := cocientesFlat_snd_div_lt valsOtros total q hqf
        rw [hvlen] at this
        rw [← hq2, holen]
        exact this
      have hmem : otros.getD (x / total) votos.length ∈ otros := by
        rw [List.getD_eq_getElem _ _ hdiv]
        exact List.getElem_mem _
      have := mem_filter_ne_range.mp (hotros ▸ hmem)
      exact this
    have hselold : selO.length = total - mayoria := by
      rw [hselO, topIdx_length, cocientesFlat_length, hvlen]
      have h1 : 1 ≤ votos.length - 1 := by omega
      have h2' : total - mayoria ≤ (votos.length - 1) * total := by
        have : total ≤ (votos.length - 1) * total := Nat.le_mul_of_pos_left total (by omega)
        omega
      omega
    have hcnt_ig : (selO.countP
        (fun x => otros.getD (x / total) votos.length == ig)) = 0 := by
      apply List.countP_eq_zero.mpr
      intro x hx
      have := (hbound x hx).2
      simp only [beq_iff_eq]
      simpa using this
    rw [listSumRange]
    have hsplit : ∀ i ∈ Finset.range votos.length,
        (if i = ig then mayoria
          else selO.countP (fun x => otros.getD (x / total) votos.length == i)) =
        (if i = ig then mayoria else 0) +
          selO.countP (fun x => otros.getD (x / total) votos.length == i) := by
      intro i _
      by_cases hi : i = ig
      · subst hi
        rw [if_pos rfl, if_pos rfl, hcnt_ig]
        omega
      · rw [if_neg hi, if_neg hi]
        omega
    rw [Finset.sum_congr rfl hsplit, Finset.sum_add_distrib]
    have hsumite : (∑ i ∈ Finset.range votos.length, if i = ig then mayoria else 0) =
        mayoria := by
      rw [Finset.sum_ite_eq' (Finset.range votos.length) ig (fun _ => mayoria),
        if_pos (Finset.mem_range.mpr hig)]
    have hsumcnt : (∑ i ∈ Finset.range votos.length,
        selO.countP (fun x => otros.getD (x / total) votos.length == i)) = selO.length :=
      sum_countP_buckets (fun x => otros.getD (x / total) votos.length) votos.length selO
        (fun x hx => (hbound x hx).1)
    rw [hsumite, hsumcnt, hselold]
    omega
  · rw [if_neg (by intro hcon; exact hres hcon.2)]
    rw [listSumRange]
    rw [Finset.sum_ite_eq' (Finset.range votos.length) ig (fun _ => mayoria),
      if_pos (Finset.mem_range.mpr hig)]
    omega

lemma edilesPorLemaMulti_keyfacts (votosPorLema : List (String × ℤ)) (total : ℕ)
    (h1 : 1 ≤ votosPorLema.length) :
    (bucketCounts (votosPorLema.map Prod.fst).length total
      (topIdx (cocientesFlat (votosPorLema.map Prod.snd) total) total)).length =
        votosPorLema.length ∧
    (bucketCounts (votosPorLema.map Prod.fst).length total
      (topIdx (cocientesFlat (votosPorLema.map Prod.snd) total) total)).sum = total := by
  set vts := votosPorLema.map Prod.snd with hvts
  set lemas := votosPorLema.map Prod.fst with hlemas
  set sel := topIdx (cocientesFlat vts total) total with hsel
  have hlenv : vts.length = votosPorLema.length := by rw [hvts, List.length_map]
  have hlenl : lemas.length = votosPorLema.length := by rw [hlemas, List.length_map]
  have hbound : ∀ x ∈ sel, x / total < lemas.length := by
    intro x hx
    obtain ⟨q, hqf, hq2⟩ := topIdx_mem hx
    have := cocientesFlat_snd_div_lt vts total q hqf
    rw [hlenv] at this
    rw [← hq2, hlenl]
    exact this
  constructor
  · rw [bucketCounts_length, hlenl]
  · rw [bucketCounts_sum _ _ _ hbound, hsel, topIdx_length, cocientesFlat_length, hlenv]
    have : total ≤ votosPorLema.length * total := Nat.le_mul_of_pos_left total (by omega)
    omega

lemma edilesPorLemaMulti_sum (votosPorLema : List (String × ℤ)) (total mayoria : ℕ)
    (h2 : 2 ≤ votosPorLema.length) (hnd : (votosPorLema.map Prod.fst).Nodup)
    (hval : mayoria ≤ total) :
    ((edilesPorLemaMulti votosPorLema total mayoria).map Prod.snd).sum = total := by
  obtain ⟨hdhlen, hdhsum⟩ := edilesPorLemaMulti_keyfacts votosPorLema total (by omega)
  simp only [edilesPorLemaMulti]
  set lemas := votosPorLema.map Prod.fst with hlemas
  set vts := votosPorLema.map Prod.snd with hvts
  set dh := bucketCounts lemas.length total (topIdx (cocientesFlat vts total) total) with hdh
  have hlenv : vts.length = votosPorLema.length := by rw [hvts, List.length_map]
  have hlenl : lemas.length = votosPorLema.length := by rw [hlemas, List.length_map]
  have hvne : vts ≠ [] := by
    intro hcon
    have hl : vts.length = 0 := by rw [hcon]; rfl
    rw [hlenv] at hl
    omega
  obtain ⟨hig, _⟩ := argmaxIdx_spec vts hvne
  set ig := argmaxIdx vts with higdef
  by_cases hover : dh.getD ig 0 < mayoria
  · rw [if_pos hover]
    have hovlen : (edilesOverride vts total mayoria ig dh).length = votosPorLema.length := by
      rw [edilesOverride_length, hlenv]
    have hkeys : ((lemas.zip (edilesOverride vts total mayoria ig dh)).map Prod.fst) =
        lemas := List.map_fst_zip _ _ (by rw [hovlen, hlenl])
    rw [pyDictOfPairs_eq_self _ (by rw [hkeys]; exact hnd)]
    rw [List.map_snd_zip _ _ (by rw [hovlen, hlenl])]
    exact edilesOverride_sum vts total mayoria ig dh (by omega) (by omega) hval
      (by rw [hdhlen, hlenv]) hdhsum hover
  · rw [if_neg hover]
    have hkeys : ((lemas.zip dh).map Prod.fst) = lemas :=
      List.map_fst_zip _ _ (by rw [hdhlen, hlenl])
    rw [pyDictOfPairs_eq_self _ (by rw [hkeys]; exact hnd)]
    rw [List.map_snd_zip _ _ (by rw [hdhlen, hlenl])]
    exact hdhsum

lemma edilesPorLema_sum (votos : List (String × ℤ)) (total mayoria : ℕ)
    (hne : votos ≠ []) (hnd : (votos.map Prod.fst).Nodup) (hval : mayoria ≤ total) :
    ((edilesPorLema votos total mayoria).map Prod.snd).sum = total := by
  match votos with
  | [] => exact absurd rfl hne
  | [p] =>
    show (([(p.1, total)] : List (String × ℕ)).map Prod.snd).sum = total
    simp
  | p :: q :: t =>
    show ((edilesPorLemaMulti (p :: q :: t) total mayoria).map Prod.snd).sum = total
    exact edilesPorLemaMulti_sum (p :: q :: t) total mayoria
      (by rw [List.length_cons, List.length_cons]; omega) hnd hval

lemma pair_getD_mem : ∀ (l : List (String × ℤ)) (i : ℕ), i < l.length →
    ((l.map Prod.fst).getD i (""), (l.map Prod.snd).getD i 0) ∈ l
  | [], i => by intro h; simp at h
  | p :: t, 0 => by intro _; simp
  | p :: t, i + 1 => by
    intro h
    rw [List.map_cons, List.map_cons, List.getD_cons_succ, List.getD_cons_succ]
    exact List.mem_cons_of_mem _ (pair_getD_mem t i (by simpa using h))

lemma edilesPorLemaMulti_winner (votosPorLema : List (String × ℤ)) (total mayoria : ℕ)
    (h2 : 2 ≤ votosPorLema.length) (hnd : (votosPorLema.map Prod.fst).Nodup)
    (hval : mayoria ≤ total) :
    ∃ w vw c, (w, vw) ∈ votosPorLema ∧ (∀ p ∈ votosPorLema, p.2 ≤ vw) ∧
      (edilesPorLemaMulti votosPorLema total mayoria).lookup w = some c ∧ mayoria ≤ c := by
  obtain ⟨hdhlen, _⟩ := edilesPorLemaMulti_keyfacts votosPorLema total (by omega)
  simp only [edilesPorLemaMulti]
  set lemas := votosPorLema.map Prod.fst with hlemas
  set vts := votosPorLema.map Prod.snd with hvts
  set dh := bucketCounts lemas.length total (topIdx (cocientesFlat vts total) total) with hdh
  have hlenv : vts.length = votosPorLema.length := by rw [hvts, List.length_map]
  have hlenl : lemas.length = votosPorLema.length := by rw [hlemas, List.length_map]
  have hvne : vts ≠ [] := by
    intro hcon
    have hl : vts.length = 0 := by rw [hcon]; rfl
    rw [hlenv] at hl
    omega
  obtain ⟨hig, hmax⟩ := argmaxIdx_spec vts hvne
  set ig := argmaxIdx vts with higdef
  have hmem : (lemas.getD ig (""), vts.getD ig 0) ∈ votosPorLema :=
    pair_getD_mem votosPorLema ig (by omega)
  have hallle : ∀ p ∈ votosPorLema, p.2 ≤ vts.getD ig 0 := by
    intro x hx
    exact hmax x.2 (List.mem_map_of_mem Prod.snd hx)
  by_cases hover : dh.getD ig 0 < mayoria
  · rw [if_pos hover]
    have hovlen : (edilesOverride vts total mayoria ig dh).length = votosPorLema.length := by
      rw [edilesOverride_length, hlenv]
    have hkeys : ((lemas.zip (edilesOverride vts total mayoria ig dh)).map Prod.fst) =
        lemas := List.map_fst_zip _ _ (by rw [hovlen, hlenl])
    rw [pyDictOfPairs_eq_self _ (by rw [hkeys]; exact hnd)]
    refine ⟨lemas.getD ig (""), vts.getD ig 0, mayoria, hmem, hallle, ?_, le_refl _⟩
    rw [lookup_zip 0 lemas (edilesOverride vts total mayoria ig dh) ig hnd
      (by rw [hovlen, hlenl]) (by omega)]
    rw [edilesOverride_getD_ig vts total mayoria ig dh (by omega)]
  · rw [if_neg hover]
    have hkeys : ((lemas.zip dh).map Prod.fst) = lemas :=
      List.map_fst_zip _ _ (by rw [hdhlen, hlenl])
    rw [pyDictOfPairs_eq_self _ (by rw [hkeys]; exact hnd)]
    refine ⟨lemas.getD ig (""), vts.getD ig 0, dh.getD ig 0, hmem, hallle, ?_,
      not_lt.mp hover⟩
    rw [lookup_zip 0 lemas dh ig hnd (by rw [hdhlen, hlenl]) (by omega)]

/-- C1 counterexample: for the empty votes mapping the result is the
empty mapping, whose values sum to 0, not to the 31 seats of the valid
pair (31, 16); the universally quantified seat-sum claim is false. -/
theorem c1_counterexample :
    ¬(((edilesPorLema [] 31 16).map Prod.snd).sum = 31) := by decide

/-- C1 amended: for every non-empty votes mapping (association list with
distinct lema keys) and every valid pair with threshold at most the seat
total, the values of the Article 272 apportionment sum to exactly the
seat total. -/
theorem c1_seat_sum_amended (votos : List (String × ℤ)) (total mayoria : ℕ)
    (hne : votos ≠ []) (hnd : (votos.map Prod.fst).Nodup) (hval : mayoria ≤ total) :
    ((edilesPorLema votos total mayoria).map Prod.snd).sum = total :=
  edilesPorLema_sum votos total mayoria hne hnd hval

/-- C1 witness: the amended seat-sum theorem applied to a concrete
three-lema election with 31 seats and threshold 16. -/
theorem c1_witness :
    ((edilesPorLema [(("A"), (40 : ℤ)), (("B"), 35), (("C"), 25)] 31 16).map
      Prod.snd).sum = 31 :=
  c1_seat_sum_amended [(("A"), (40 : ℤ)), (("B"), 35), (("C"), 25)] 31 16
    (by decide) (by decide) (by decide)

/-- C2: for every non-empty votes mapping with distinct lema keys and
threshold at most the seat total, the winner chosen by the code is a
most-voted lema and the seat count the apportionment assigns to it is at
least the automatic-majority threshold. -/
theorem c2_winner_majority (votos : List (String × ℤ)) (total mayoria : ℕ)
    (hne : votos ≠ []) (hnd : (votos.map Prod.fst).Nodup) (hval : mayoria ≤ total) :
    ∃ w vw c, (w, vw) ∈ votos ∧ (∀ p ∈ votos, p.2 ≤ vw) ∧
      (edilesPorLema votos total mayoria).lookup w = some c ∧ mayoria ≤ c := by
  match votos with
  | [] => exact absurd rfl hne
  | [p] =>
    refine ⟨p.1, p.2, total, by simp, ?_, ?_, hval⟩
    · intro x hx
      rcases List.mem_cons.mp hx with h | h
      · rw [h]
      · simp at h
    · show List.lookup p.1 [(p.1, total)] = some total
      simp [List.lookup]
  | p :: q :: t =>
    show ∃ w vw c, (w, vw) ∈ p :: q :: t ∧ (∀ x ∈ p :: q :: t, x.2 ≤ vw) ∧
      (edilesPorLemaMulti (p :: q :: t) total mayoria).lookup w = some c ∧ mayoria ≤ c
    exact edilesPorLemaMulti_winner (p :: q :: t) total mayoria
      (by rw [List.length_cons, List.length_cons]; omega) hnd hval

/-- C2 witness: the majority theorem applied to the concrete election of
scenario B with 5 seats and threshold 3. -/
theorem c2_witness :
    ∃ w vw c, (w, vw) ∈ [(("A"), (40 : ℤ)), (("B"), 35), (("C"), 25)] ∧
      (∀ p ∈ [(("A"), (40 : ℤ)), (("B"), 35), (("C"), 25)], p.2 ≤ vw) ∧
      (edilesPorLema [(("A"), (40 : ℤ)), (("B"), 35), (("C"), 25)] 5 3).lookup w =
        some c ∧ 3 ≤ c :=
  c2_winner_majority [(("A"), (40 : ℤ)), (("B"), 35), (("C"), 25)] 5 3
    (by decide) (by decide) (by decide)

/-- C4: scenario B evaluated on the embedding.  The unrestricted DHondt
distribution of the 5 seats over votes A 40, B 35, C 25 gives the winner
A only 2 seats, so the majority override fires: A is assigned the
threshold 3 and the remaining 2 seats go to B and C by DHondt over the
non-winners, yielding exactly A 3, B 1, C 1. -/
theorem c4_scenario_b_override :
    bucketCounts 3 5 (topIdx (cocientesFlat [40, 35, 25] 5) 5) = [2, 2, 1] ∧
    edilesPorLema [(("A"), (40 : ℤ)), (("B"), 35), (("C"), 25)] 5 3 =
      [(("A"), 3), (("B"), 1), (("C"), 1)] := by decide

/- ------------------------------------------------------------------ -/
/- List-level apportionment: municipal_concejales.py and enrich.py    -/
/- ------------------------------------------------------------------ -/

/-- Exact rational of an integer, built with divInt so that it computes
by kernel reduction. -/
def ratOfInt (n : ℤ) : ℚ := Rat.divInt n 1

/-- Exact product of rationals, built with divInt so that it computes by
kernel reduction; equal to the field product. -/
def ratMulQ (a b : ℚ) : ℚ := Rat.divInt (a.num * b.num) ((a.den : ℤ) * (b.den : ℤ))

/-- Exact difference of rationals, built with divInt. -/
def ratSubQ (a b : ℚ) : ℚ :=
  Rat.divInt (a.num * (b.den : ℤ) - b.num * (a.den : ℤ)) ((a.den : ℤ) * (b.den : ℤ))

/-- Exact quotient of rationals, built with divInt; equal to the field
quotient (with the zero-denominator convention of the field). -/
def ratDivQ (a b : ℚ) : ℚ := Rat.divInt (a.num * (b.den : ℤ)) ((a.den : ℤ) * b.num)

/-- Model of the Python int() conversion of a real quotient: truncation
toward zero. -/
def ratTrunc (q : ℚ) : ℤ := q.num.tdiv (q.den : ℤ)

/-- The per-list quotient column of _calculate_pure_dhondt: votes divided
by 1..totalSeats for a list with positive votes, a zero column
otherwise. -/
def pureDhondtCocientes (votos : ℤ) (totalSeats : ℕ) : List ℚ :=
  if 0 < votos then (List.range totalSeats).map (fun i => Rat.divInt votos (Int.ofNat (i + 1)))
  else List.replicate totalSeats (0 : ℚ)

/-- The global quotient list of _calculate_pure_dhondt: every quotient of
every list, paired with the index of its list, in list order. -/
def cocientesGlobal (votosList : List ℤ) (totalSeats : ℕ) : List (ℚ × ℕ) :=
  votosList.enum.flatMap
    (fun p => (pureDhondtCocientes p.2 totalSeats).map (fun c => (c, p.1)))

/-- Embedding of _calculate_pure_dhondt on the vote counts of the lists
of one party: each list receives one seat per quotient of its own among
the largest positive quotients, where the assignment loop walks the
quotients in descending order and stops as soon as totalSeats seats are
assigned or the next quotient is not positive (so the assigned quotients
are the positive ones among the first totalSeats of the descending
order).  The result pairs each seat count with the Resto field, the
quotient of the last seat taken by that list.  An empty input or a
non-positive seat count yields zero seats and zero resto everywhere. -/
def calculatePureDhondt (votosList : List ℤ) (totalSeats : ℕ) : List (ℕ × ℚ) :=
  if votosList = [] ∨ totalSeats = 0 then votosList.map (fun _ => (0, (0 : ℚ)))
  else
    let sorted := List.insertionSort qIdxGe (cocientesGlobal votosList totalSeats)
    let assigned := (sorted.take totalSeats).takeWhile (fun p => 0 < p.1)
    votosList.enum.map (fun p : ℕ × ℤ =>
      let seats : ℕ := assigned.countP (fun q => q.2 == p.1)
      (seats, if 0 < seats ∧ 0 < p.2 then Rat.divInt p.2 (Int.ofNat seats) else (0 : ℚ)))

example : calculatePureDhondt [(3 : ℤ), 1] 2 =
    [(2, Rat.divInt 3 2), (0, 0)] := by decide

example : calculatePureDhondt [(3 : ℤ), 2] 2 =
    [(1, Rat.divInt 3 1), (1, Rat.divInt 2 1)] := by decide

example : calculatePureDhondt [(5 : ℤ)] 3 = [(3, Rat.divInt 5 3)] := by decide

example : ((calculatePureDhondt [(0 : ℤ)] 1).map Prod.fst).sum = 0 := by decide

/-- Working record of enrich_listas_data for one list of a party: its
votes, assigned ediles and remainder. -/
structure ListaTmp where
  votos : ℤ
  ediles : ℤ
  resto : ℚ
deriving DecidableEq

/-- Descending order on votes, the Python sort key votos with reverse. -/
def lteVotosDesc (a b : ListaTmp) : Prop := b.votos ≤ a.votos

instance : DecidableRel lteVotosDesc := fun a b => inferInstanceAs (Decidable (b.votos ≤ a.votos))

/-- Descending order on remainders, the Python sort key resto with
reverse. -/
def lteRestoDesc (a b : ListaTmp) : Prop := b.resto ≤ a.resto

instance : DecidableRel lteRestoDesc := fun a b => inferInstanceAs (Decidable (b.resto ≤ a.resto))

/-- Embedding of the seat computation of enrich_listas_data for one
party: sort the lists by votes descending, assign whole seats by the
electoral quotient (party votes over party seats, as an exact rational),
then assign the remaining seats one each to the lists with the largest
remainders, and re-sort by votes for presentation.  The result is none
exactly when the Python code raises ZeroDivisionError: a positive seat
count with zero party votes and at least one list, where the quotient is
the float 0.0 and the division votes/0.0 raises. -/
def enrichListasSeats (votosListas : List ℤ) (votosPartido : ℤ) (totalEdiles : ℕ) :
    Option (List ListaTmp) :=
  let init := votosListas.map (fun v => ListaTmp.mk v 0 0)
  let sortedByVotes := List.insertionSort lteVotosDesc init
  if totalEdiles = 0 then some sortedByVotes
  else
    if votosPartido = 0 ∧ votosListas ≠ [] then none
    else
      let cociente : ℚ := Rat.divInt votosPartido (Int.ofNat totalEdiles)
      let withFloors := sortedByVotes.map (fun l =>
        let e := ratTrunc (ratDivQ (ratOfInt l.votos) cociente)
        ListaTmp.mk l.votos e (ratSubQ (ratOfInt l.votos) (ratMulQ (ratOfInt e) cociente)))
      let restantes : ℤ := (totalEdiles : ℤ) - (withFloors.map (fun l => l.ediles)).sum
      let final :=
        if 0 < restantes then
          let byResto := List.insertionSort lteRestoDesc withFloors
          ((byResto.take restantes.toNat).map
            (fun l => ListaTmp.mk l.votos (l.ediles + 1) 0)) ++ byResto.drop restantes.toNat
        else withFloors
      some (List.insertionSort lteVotosDesc final)

example :
    (enrichListasSeats [(2 : ℤ), 1] 3 2).map (fun r => r.map (fun l => (l.votos, l.ediles))) =
      some [((2 : ℤ), (1 : ℤ)), (1, 1)] := by decide

example : enrichListasSeats [(7 : ℤ)] 0 4 = none := by decide

lemma ratOfInt_eq (n : ℤ) : ratOfInt n = (n : ℚ) := by
  rw [ratOfInt, Rat.divInt_eq_div, Int.cast_one, div_one]

lemma ratMulQ_eq (a b : ℚ) : ratMulQ a b = a * b := by
  rw [ratMulQ, Rat.divInt_eq_div]
  push_cast
  conv_rhs => rw [← Rat.num_div_den a, ← Rat.num_div_den b]
  rw [div_mul_div_comm]

lemma ratSubQ_eq (a b : ℚ) : ratSubQ a b = a - b := by
  have hda : ((a.den : ℚ)) ≠ 0 := by
    exact_mod_cast a.den_nz
  have hdb : ((b.den : ℚ)) ≠ 0 := by
    exact_mod_cast b.den_nz
  rw [ratSubQ, Rat.divInt_eq_div]
  push_cast
  conv_rhs => rw [← Rat.num_div_den a, ← Rat.num_div_den b]
  rw [div_sub_div _ _ hda hdb]
  ring_nf

lemma ratDivQ_eq (a b : ℚ) : ratDivQ a b = a / b := by
  by_cases hb : b = 0
  · subst hb
    rw [ratDivQ]
    simp [Rat.divInt_zero]
  · have hbnum : (b.num : ℚ) ≠ 0 := by
      exact_mod_cast Rat.num_ne_zero.mpr hb
    have hda : ((a.den : ℚ)) ≠ 0 := by exact_mod_cast a.den_nz
    have hdb : ((b.den : ℚ)) ≠ 0 := by exact_mod_cast b.den_nz
    rw [ratDivQ, Rat.divInt_eq_div]
    push_cast
    conv_rhs => rw [← Rat.num_div_den a, ← Rat.num_div_den b]
    field_simp

lemma ratTrunc_spec (q : ℚ) (h : 0 ≤ q) :
    0 ≤ ratTrunc q ∧ ((ratTrunc q : ℤ) : ℚ) ≤ q ∧ q < ((ratTrunc q : ℤ) : ℚ) + 1 := by
  have hnum : 0 ≤ q.num := Rat.num_nonneg.mpr h
  have hdenz : (0 : ℤ) < (q.den : ℤ) := by exact_mod_cast q.pos
  have htd : ratTrunc q = q.num / (q.den : ℤ) := by
    rw [ratTrunc, Int.tdiv_eq_ediv hnum (le_of_lt hdenz)]
  have hqd : ((q.num : ℚ)) / ((q.den : ℚ)) = q := Rat.num_div_den q
  have hdenq : (0 : ℚ) < ((q.den : ℚ)) := by exact_mod_cast q.pos
  refine ⟨?_, ?_, ?_⟩
  · rw [htd]
    exact Int.ediv_nonneg hnum (le_of_lt hdenz)
  · rw [htd]
    conv_rhs => rw [← hqd]
    rw [le_div_iff₀ hdenq]
    have hle : q.num / (q.den : ℤ) * (q.den : ℤ) ≤ q.num :=
      Int.ediv_mul_le q.num (ne_of_gt hdenz)
    exact_mod_cast hle
  · rw [htd]
    conv_lhs => rw [← hqd]
    rw [div_lt_iff₀ hdenq]
    have hlt : q.num < (q.num / (q.den : ℤ) + 1) * (q.den : ℤ) :=
      Int.lt_ediv_add_one_mul_self q.num hdenz
    exact_mod_cast hlt

lemma pureDhondtCocientes_length (v : ℤ) (k : ℕ) : (pureDhondtCocientes v k).length = k := by
  rw [pureDhondtCocientes]
  split
  · rw [List.length_map, List.length_range]
  · rw [List.length_replicate]

lemma cocientesGlobal_length (l : List ℤ) (k : ℕ) :
    (cocientesGlobal l k).length = l.length * k := by
  rw [cocientesGlobal, length_flatMap_const _ _ k (fun p _ => by
    rw [List.length_map, pureDhondtCocientes_length]), List.enum_length]

lemma cocientesGlobal_snd_lt (l : List ℤ) (k : ℕ) (q : ℚ × ℕ)
    (hq : q ∈ cocientesGlobal l k) : q.2 < l.length := by
  rw [cocientesGlobal, List.mem_flatMap] at hq
  obtain ⟨p, hp, hq2⟩ := hq
  rw [List.mem_map] at hq2
  obtain ⟨c, _, rfl⟩ := hq2
  have := mem_enumFrom_spec l 0 p hp
  omega

lemma countP_flatMap_ge {α β : Type} (p : β → Bool) (f : α → List β) :
    ∀ (l : List α) (a : α), a ∈ l → (f a).countP p ≤ (l.flatMap f).countP p
  | [], a => by intro h; simp at h
  | x :: t, a => by
    intro h
    rw [List.flatMap_cons, List.countP_append]
    rcases List.mem_cons.mp h with h1 | h1
    · subst h1
      exact Nat.le_add_right _ _
    · have := countP_flatMap_ge p f t a h1
      omega

lemma cocientesGlobal_pos_count (l : List ℤ) (k : ℕ) (v : ℤ) (hv : v ∈ l) (hpos : 0 < v) :
    k ≤ (cocientesGlobal l k).countP (fun q => decide (0 < q.1)) := by
  have hvm : v ∈ l.enum.map Prod.snd := by
    rw [List.enum_map_snd]
    exact hv
  rw [List.mem_map] at hvm
  obtain ⟨p, hp, hp2⟩ := hvm
  have hblock : ((pureDhondtCocientes p.2 k).map (fun c => (c, p.1))).countP
      (fun q => decide (0 < q.1)) = k := by
    rw [List.countP_map]
    have hallpos : ∀ c ∈ pureDhondtCocientes p.2 k, ((fun q : ℚ × ℕ => decide (0 < q.1)) ∘
        (fun c => (c, p.1))) c = true := by
      intro c hc
      rw [pureDhondtCocientes, if_pos (hp2 ▸ hpos)] at hc
      rw [List.mem_map] at hc
      obtain ⟨i, _, rfl⟩ := hc
      simp only [Function.comp_apply, decide_eq_true_eq]
      rw [Rat.divInt_eq_div]
      apply div_pos
      · exact_mod_cast hp2 ▸ hpos
      · have hi1 : (0 : ℤ) < Int.ofNat (i + 1) := by
          rw [Int.ofNat_eq_coe]
          exact_mod_cast Nat.succ_pos i
        exact_mod_cast hi1
    calc ((pureDhondtCocientes p.2 k).countP _) = (pureDhondtCocientes p.2 k).length :=
          List.countP_eq_length.mpr hallpos
      _ = k := pureDhondtCocientes_length _ _
  calc k = ((pureDhondtCocientes p.2 k).map (fun c => (c, p.1))).countP
        (fun q => decide (0 < q.1)) := hblock.symm
    _ ≤ (cocientesGlobal l k).countP (fun q => decide (0 < q.1)) := by
        rw [cocientesGlobal]
        exact countP_flatMap_ge (fun q => decide (0 < q.1))
          (fun p => (pureDhondtCocientes p.2 k).map (fun c => (c, p.1))) l.enum p hp

lemma sorted_take_pos :
    ∀ (l : List (ℚ × ℕ)), List.Sorted qIdxGe l →
      ∀ k, k ≤ l.countP (fun p => decide (0 < p.1)) → ∀ q ∈ l.take k, 0 < q.1
  | [], _, k => by
    intro _ q hq
    rw [List.take_nil] at hq
    simp at hq
  | a :: t, hs, 0 => by
    intro _ q hq
    simp at hq
  | a :: t, hs, k + 1 => by
    intro hc q hq
    obtain ⟨hrel, hst⟩ := List.sorted_cons.mp hs
    have hapos : 0 < a.1 := by
      by_contra hno
      push_neg at hno
      have hz : (a :: t).countP (fun p => decide (0 < p.1)) = 0 := by
        apply List.countP_eq_zero.mpr
        intro x hx
        rcases List.mem_cons.mp hx with h1 | h1
        · subst h1
          simpa using hno
        · have hxle : x.1 ≤ a.1 := hrel x h1
          simp only [decide_eq_true_eq]
          push_neg
          exact le_trans hxle hno
      omega
    rw [List.take_succ_cons] at hq
    rcases List.mem_cons.mp hq with h1 | h1
    · subst h1; exact hapos
    · have hc' : k ≤ t.countP (fun p => decide (0 < p.1)) := by
        have : (a :: t).countP (fun p => decide (0 < p.1)) =
            t.countP (fun p => decide (0 < p.1)) + 1 := by
          rw [List.countP_cons]
          simp [hapos]
        omega
      exact sorted_take_pos t hst k hc' q h1

lemma takeWhile_eq_self_of_all {α : Type} (p : α → Bool) :
    ∀ (l : List α), (∀ x ∈ l, p x = true) → l.takeWhile p = l
  | [], _ => rfl
  | a :: t, h => by
    rw [List.takeWhile_cons_of_pos (h a (List.mem_cons_self _ _)),
      takeWhile_eq_self_of_all p t (fun x hx => h x (List.mem_cons_of_mem _ hx))]

lemma calculatePureDhondt_sum (votosList : List ℤ) (totalSeats : ℕ)
    (hpos : ∃ v ∈ votosList, 0 < v) :
    ((calculatePureDhondt votosList totalSeats).map Prod.fst).sum = totalSeats := by
  obtain ⟨v, hv, hvpos⟩ := hpos
  have hne : votosList ≠ [] := by
    intro h
    subst h
    simp at hv
  rcases Nat.eq_zero_or_pos totalSeats with hk | hk
  · subst hk
    rw [calculatePureDhondt, if_pos (Or.inr rfl), List.map_map]
    apply List.sum_eq_zero
    intro x hx
    rw [List.mem_map] at hx
    obtain ⟨y, _, rfl⟩ := hx
    rfl
  · rw [calculatePureDhondt, if_neg (by push_neg; exact ⟨hne, by omega⟩)]
    set sorted := List.insertionSort qIdxGe (cocientesGlobal votosList totalSeats) with hsorted
    set assigned := (sorted.take totalSeats).takeWhile (fun p => decide (0 < p.1))
      with hassigned
    have hcount : totalSeats ≤ sorted.countP (fun p => decide (0 < p.1)) := by
      rw [hsorted, (List.perm_insertionSort qIdxGe _).countP_eq]
      exact cocientesGlobal_pos_count votosList totalSeats v hv hvpos
    have hsorted_s : List.Sorted qIdxGe sorted := List.sorted_insertionSort qIdxGe _
    have hall : ∀ x ∈ sorted.take totalSeats, (fun p : ℚ × ℕ => decide (0 < p.1)) x = true := by
      intro x hx
      have := sorted_take_pos sorted hsorted_s totalSeats hcount x hx
      simpa using this
    have hassigned_eq : assigned = sorted.take totalSeats := by
      rw [hassigned]
      exact takeWhile_eq_self_of_all _ _ hall
    have hlen : assigned.length = totalSeats := by
      rw [hassigned_eq, List.length_take, hsorted, List.length_insertionSort,
        cocientesGlobal_length]
      have h1 : 1 ≤ votosList.length := by
        cases votosList with
        | nil => exact absurd rfl hne
        | cons a t => simp
      have : totalSeats ≤ votosList.length * totalSeats :=
        Nat.le_mul_of_pos_left totalSeats (by omega)
      omega
    have hsndmem : ∀ x ∈ assigned.map Prod.snd, x < votosList.length := by
      intro x hx
      rw [List.mem_map] at hx
      obtain ⟨q, hq, rfl⟩ := hx
      have h1 : q ∈ sorted := by
        rw [hassigned_eq] at hq
        exact List.take_subset _ _ hq
      have h2 : q ∈ cocientesGlobal votosList totalSeats := by
        rw [hsorted] at h1
        exact (List.perm_insertionSort qIdxGe _).mem_iff.mp h1
      exact cocientesGlobal_snd_lt _ _ q h2
    rw [List.map_map]
    have hfun : (Prod.fst ∘ fun p : ℕ × ℤ =>
        ((assigned.countP (fun q => q.2 == p.1)),
          if 0 < assigned.countP (fun q => q.2 == p.1) ∧ 0 < p.2 then
            Rat.divInt p.2 (Int.ofNat (assigned.countP (fun q => q.2 == p.1)))
          else (0 : ℚ))) =
        ((fun i => assigned.countP (fun q => q.2 == i)) ∘ Prod.fst) := rfl
    rw [hfun, ← List.map_map, List.enum_map_fst, listSumRange]
    have hcp : ∀ i, assigned.countP (fun q => q.2 == i) =
        (assigned.map Prod.snd).countP (fun x => x == i) := by
      intro i
      rw [List.countP_map]
      rfl
    calc (∑ i ∈ Finset.range votosList.length, assigned.countP (fun q => q.2 == i))
        = ∑ i ∈ Finset.range votosList.length,
            (assigned.map Prod.snd).countP (fun x => x == i) := by
          exact Finset.sum_congr rfl (fun i _ => hcp i)
      _ = (assigned.map Prod.snd).length := by
          have := sum_countP_buckets (fun x => x) votosList.length (assigned.map Prod.snd)
            hsndmem
          simpa using this
      _ = totalSeats := by rw [List.length_map, hlen]

lemma list_sum_le_sum_rat {α : Type} (f g : α → ℚ) :
    ∀ (l : List α), (∀ x ∈ l, f x ≤ g x) → (l.map f).sum ≤ (l.map g).sum
  | [], _ => le_refl _
  | a :: t, h => by
    rw [List.map_cons, List.map_cons, List.sum_cons, List.sum_cons]
    exact add_le_add (h a (List.mem_cons_self _ _))
      (list_sum_le_sum_rat f g t (fun x hx => h x (List.mem_cons_of_mem _ hx)))

lemma list_sum_lt_sum_rat {α : Type} (f g : α → ℚ) :
    ∀ (l : List α), l ≠ [] → (∀ x ∈ l, f x < g x) → (l.map f).sum < (l.map g).sum
  | [], hne, _ => absurd rfl hne
  | a :: t, _, h => by
    rw [List.map_cons, List.map_cons, List.sum_cons, List.sum_cons]
    exact add_lt_add_of_lt_of_le (h a (List.mem_cons_self _ _))
      (list_sum_le_sum_rat f g t (fun x hx => le_of_lt (h x (List.mem_cons_of_mem _ hx))))

lemma list_sum_map_succ_rat {α : Type} (f : α → ℚ) :
    ∀ (l : List α), (l.map (fun t => f t + 1)).sum = (l.map f).sum + (l.length : ℚ)
  | [] => by simp
  | a :: t => by
    rw [List.map_cons, List.map_cons, List.sum_cons, List.sum_cons,
      list_sum_map_succ_rat f t, List.length_cons]
    push_cast
    ring

lemma list_sum_map_succ_int {α : Type} (f : α → ℤ) :
    ∀ (l : List α), (l.map (fun t => f t + 1)).sum = (l.map f).sum + (l.length : ℤ)
  | [] => by simp
  | a :: t => by
    rw [List.map_cons, List.map_cons, List.sum_cons, List.sum_cons,
      list_sum_map_succ_int f t, List.length_cons]
    push_cast
    ring

lemma list_sum_map_mul_right_rat {α : Type} (f : α → ℚ) (r : ℚ) :
    ∀ (l : List α), (l.map (fun t => f t * r)).sum = (l.map f).sum * r
  | [] => by simp
  | a :: t => by
    rw [List.map_cons, List.map_cons, List.sum_cons, List.sum_cons,
      list_sum_map_mul_right_rat f r t]
    ring

lemma sum_bump_ediles (l : List ListaTmp) (r : ℕ) :
    ((((l.take r).map (fun t => ListaTmp.mk t.votos (t.ediles + 1) 0)) ++ l.drop r).map
      (fun t => t.ediles)).sum =
      (l.map (fun t => t.ediles)).sum + ((min r l.length : ℕ) : ℤ) := by
  rw [List.map_append, List.sum_append, List.map_map]
  have h1 : ((fun t : ListaTmp => t.ediles) ∘ (fun t => ListaTmp.mk t.votos (t.ediles + 1) 0)) =
      (fun t : ListaTmp => t.ediles + 1) := rfl
  rw [h1, list_sum_map_succ_int (fun t : ListaTmp => t.ediles) (l.take r), List.length_take]
  have h2 : (l.map (fun t => t.ediles)).sum =
      ((l.take r).map (fun t => t.ediles)).sum + ((l.drop r).map (fun t => t.ediles)).sum := by
    conv_lhs => rw [← List.take_append_drop r l]
    rw [List.map_append, List.sum_append]
  rw [h2]
  ring

lemma enrichListasSeats_sum (votosListas : List ℤ) (V : ℤ) (k : ℕ) (r : List ListaTmp)
    (hV : 0 < V) (hnn : ∀ v ∈ votosListas, 0 ≤ v) (hsum : votosListas.sum = V)
    (hr : enrichListasSeats votosListas V k = some r) :
    (r.map (fun l => l.ediles)).sum = (k : ℤ) := by
  have hVne : V ≠ 0 := ne_of_gt hV
  rcases Nat.eq_zero_or_pos k with hk | hk
  · subst hk
    simp only [enrichListasSeats, if_pos rfl] at hr
    have hre := Option.some.inj hr
    subst hre
    have hperm := (List.perm_insertionSort lteVotosDesc
      (votosListas.map (fun v => ListaTmp.mk v 0 0))).map (fun t : ListaTmp => t.ediles)
    rw [hperm.sum_eq, List.map_map]
    have hconst : ((fun t : ListaTmp => t.ediles) ∘ (fun v : ℤ => ListaTmp.mk v 0 0)) =
        (fun _ : ℤ => (0 : ℤ)) := rfl
    rw [hconst]
    rw [Nat.cast_zero]
    apply List.sum_eq_zero
    intro x hx
    rw [List.mem_map] at hx
    obtain ⟨y, _, rfl⟩ := hx
    rfl
  · simp only [enrichListasSeats] at hr
    rw [if_neg (by omega)] at hr
    rw [if_neg (fun hcon => hVne hcon.1)] at hr
    have hre := Option.some.inj hr
    subst hre
    set cociente : ℚ := Rat.divInt V (Int.ofNat k) with hcoc
    set init := votosListas.map (fun v => ListaTmp.mk v 0 0) with hinit
    set sortedByVotes := List.insertionSort lteVotosDesc init with hsv
    have hsvperm : sortedByVotes.Perm init := List.perm_insertionSort _ _
    have hvotes_eq : init.map (fun l : ListaTmp => l.votos) = votosListas := by
      rw [hinit, List.map_map]
      have : ((fun l : ListaTmp => l.votos) ∘ (fun v : ℤ => ListaTmp.mk v 0 0)) =
          (fun v : ℤ => v) := rfl
      rw [this, List.map_id']
    have hsum_votes : (sortedByVotes.map (fun l : ListaTmp => l.votos)).sum = V := by
      rw [(hsvperm.map (fun l : ListaTmp => l.votos)).sum_eq, hvotes_eq, hsum]
    have hnn_sorted : ∀ l ∈ sortedByVotes, 0 ≤ l.votos := by
      intro l hl
      have hl2 : l ∈ init := hsvperm.mem_iff.mp hl
      rw [hinit, List.mem_map] at hl2
      obtain ⟨v, hv, rfl⟩ := hl2
      exact hnn v hv
    have hne : votosListas ≠ [] := by
      intro hcon
      rw [hcon] at hsum
      simp at hsum
      omega
    have hn1 : 1 ≤ sortedByVotes.length := by
      rw [hsv, List.length_insertionSort, hinit, List.length_map]
      cases votosListas with
      | nil => exact absurd rfl hne
      | cons a t => simp
    have hsne : sortedByVotes ≠ [] := by
      intro hcon
      rw [hcon] at hn1
      simp at hn1
    have hkq : ((k : ℤ) : ℚ) = (k : ℚ) := by push_cast; ring
    have hcq : cociente = (V : ℚ) / (k : ℚ) := by
      rw [hcoc, Rat.divInt_eq_div, Int.ofNat_eq_coe]
      push_cast
      ring_nf
    have hVq : (0 : ℚ) < (V : ℚ) := by exact_mod_cast hV
    have hkqpos : (0 : ℚ) < (k : ℚ) := by exact_mod_cast hk
    have hxval : ∀ v : ℤ, ratDivQ (ratOfInt v) cociente =
        (v : ℚ) * ((k : ℚ) / (V : ℚ)) := by
      intro v
      rw [ratDivQ_eq, ratOfInt_eq, hcq, div_div_eq_mul_div, mul_div_assoc]
    have hEspec : ∀ v : ℤ, 0 ≤ v →
        0 ≤ ratTrunc (ratDivQ (ratOfInt v) cociente) ∧
        ((ratTrunc (ratDivQ (ratOfInt v) cociente) : ℤ) : ℚ) ≤ ratDivQ (ratOfInt v) cociente ∧
        ratDivQ (ratOfInt v) cociente <
          ((ratTrunc (ratDivQ (ratOfInt v) cociente) : ℤ) : ℚ) + 1 := by
      intro v hv
      have hx0 : 0 ≤ ratDivQ (ratOfInt v) cociente := by
        rw [hxval]
        apply mul_nonneg
        · exact_mod_cast hv
        · exact le_of_lt (div_pos hkqpos hVq)
      exact ratTrunc_spec _ hx0
    set eF := fun l : ListaTmp =>
      ListaTmp.mk l.votos (ratTrunc (ratDivQ (ratOfInt l.votos) cociente))
        (ratSubQ (ratOfInt l.votos)
          (ratMulQ (ratOfInt (ratTrunc (ratDivQ (ratOfInt l.votos) cociente))) cociente))
      with heF
    set withFloors := sortedByVotes.map eF with hwf
    have hwf_ediles : withFloors.map (fun l : ListaTmp => l.ediles) =
        sortedByVotes.map (fun l => ratTrunc (ratDivQ (ratOfInt l.votos) cociente)) := by
      rw [hwf, List.map_map]
      rfl
    set S : ℤ := (withFloors.map (fun l : ListaTmp => l.ediles)).sum with hSdef
    have hSQ : (S : ℚ) =
        (sortedByVotes.map
          (fun l => ((ratTrunc (ratDivQ (ratOfInt l.votos) cociente) : ℤ) : ℚ))).sum := by
      rw [hSdef, hwf_ediles, Int.cast_list_sum, List.map_map]
      rfl
    have hXsum : (sortedByVotes.map
        (fun l : ListaTmp => (l.votos : ℚ) * ((k : ℚ) / (V : ℚ)))).sum = (k : ℚ) := by
      rw [list_sum_map_mul_right_rat (fun l : ListaTmp => (l.votos : ℚ)) _ sortedByVotes]
      have hcast : (sortedByVotes.map (fun l : ListaTmp => (l.votos : ℚ))).sum =
          ((sortedByVotes.map (fun l : ListaTmp => l.votos)).sum : ℚ) := by
        rw [Int.cast_list_sum, List.map_map]
        rfl
      rw [hcast, hsum_votes]
      field_simp
    have hSle : S ≤ (k : ℤ) := by
      have hle : (S : ℚ) ≤ (k : ℚ) := by
        rw [hSQ, ← hXsum]
        apply list_sum_le_sum_rat
        intro l hl
        exact le_of_le_of_eq (hEspec l.votos (hnn_sorted l hl)).2.1 (hxval l.votos)
      exact_mod_cast hle
    have hstrict : (k : ℤ) - S < (sortedByVotes.length : ℤ) := by
      have hlt : (k : ℚ) < (S : ℚ) + (sortedByVotes.length : ℚ) := by
        rw [← hXsum, hSQ]
        calc (sortedByVotes.map
            (fun l : ListaTmp => (l.votos : ℚ) * ((k : ℚ) / (V : ℚ)))).sum
            < (sortedByVotes.map (fun l : ListaTmp =>
                ((ratTrunc (ratDivQ (ratOfInt l.votos) cociente) : ℤ) : ℚ) + 1)).sum := by
              apply list_sum_lt_sum_rat _ _ sortedByVotes hsne
              intro l hl
              exact lt_of_eq_of_lt (hxval l.votos).symm
                (hEspec l.votos (hnn_sorted l hl)).2.2
          _ = (sortedByVotes.map (fun l : ListaTmp =>
                ((ratTrunc (ratDivQ (ratOfInt l.votos) cociente) : ℤ) : ℚ))).sum +
                (sortedByVotes.length : ℚ) := by
              exact list_sum_map_succ_rat _ sortedByVotes
      have hlt2 : (k : ℤ) < S + (sortedByVotes.length : ℤ) := by exact_mod_cast hlt
      omega
    by_cases hrest : 0 < (k : ℤ) - S
    · rw [if_pos hrest]
      set byResto := List.insertionSort lteRestoDesc withFloors with hbr
      have hbrperm : byResto.Perm withFloors := List.perm_insertionSort _ _
      have hbrsum : (byResto.map (fun l : ListaTmp => l.ediles)).sum = S := by
        rw [(hbrperm.map (fun l : ListaTmp => l.ediles)).sum_eq, hSdef]
      have hbrlen : byResto.length = sortedByVotes.length := by
        rw [hbr, List.length_insertionSort, hwf, List.length_map]
      have hfinperm := (List.perm_insertionSort lteVotosDesc
        (((byResto.take ((k : ℤ) - S).toNat).map
          (fun t => ListaTmp.mk t.votos (t.ediles + 1) 0)) ++
          byResto.drop ((k : ℤ) - S).toNat)).map (fun t : ListaTmp => t.ediles)
      rw [hfinperm.sum_eq, sum_bump_ediles, hbrsum]
      have hmin : min ((k : ℤ) - S).toNat byResto.length = ((k : ℤ) - S).toNat := by
        have h1 : ((k : ℤ) - S).toNat < byResto.length := by
          rw [hbrlen]
          omega
        omega
      rw [hmin]
      have h2 : (((k : ℤ) - S).toNat : ℤ) = (k : ℤ) - S := Int.toNat_of_nonneg (by omega)
      rw [h2]
      ring
    · rw [if_neg hrest]
      have hperm := (List.perm_insertionSort lteVotosDesc withFloors).map
        (fun t : ListaTmp => t.ediles)
      rw [hperm.sum_eq, ← hSdef]
      omega

/-- C5 counterexample: a party allocated 1 seat whose single list has 0
votes.  The highest-averages strategy assigns no seat at all (the loop
stops at non-positive quotients), so the per-list seats sum to 0, not to
the 1 seat of the party; the claim as stated is false. -/
theorem c5_counterexample :
    ¬(((calculatePureDhondt [(0 : ℤ)] 1).map Prod.fst).sum = 1) := by decide

/-- C5 amended: the per-list seats sum to the seats of the party for
both strategies under the conditions the counterexample forces: the
highest-averages strategy requires at least one list with positive
votes, and the quotient-plus-largest-remainder strategy requires a
positive party total equal to the sum of its lists non-negative votes
(and then holds whenever the computation does not raise). -/
theorem c5_list_seat_sums (votosListas : List ℤ) (totalSeats : ℕ) (V : ℤ) (k : ℕ)
    (r : List ListaTmp) (hpos : ∃ v ∈ votosListas, 0 < v) (hV : 0 < V)
    (hnn : ∀ v ∈ votosListas, 0 ≤ v) (hsum : votosListas.sum = V)
    (hr : enrichListasSeats votosListas V k = some r) :
    ((calculatePureDhondt votosListas totalSeats).map Prod.fst).sum = totalSeats ∧
    (r.map (fun l => l.ediles)).sum = (k : ℤ) :=
  ⟨calculatePureDhondt_sum votosListas totalSeats hpos,
    enrichListasSeats_sum votosListas V k r hV hnn hsum hr⟩

/-- C5 witness: both list-level strategies evaluated on the lists with 2
and 1 votes of a party with 3 votes and 2 seats. -/
theorem c5_witness :
    ((calculatePureDhondt [(2 : ℤ), 1] 2).map Prod.fst).sum = 2 ∧
    (([ListaTmp.mk 2 1 (Rat.divInt 1 2), ListaTmp.mk 1 1 0].map
      (fun l => l.ediles)).sum = (2 : ℤ)) :=
  c5_list_seat_sums [(2 : ℤ), 1] 2 3 2
    [ListaTmp.mk 2 1 (Rat.divInt 1 2), ListaTmp.mk 1 1 0]
    ⟨2, by decide, by decide⟩ (by decide) (by decide) (by decide) (by decide)

/- ------------------------------------------------------------------ -/
/- Canonical model: src/domain/models.py                              -/
/- ------------------------------------------------------------------ -/

/-- Papeleta individual.  The pydantic models declare typed fields with
neutral defaults and, despite the module docstring, no validators: the
constructors below are total and check nothing. -/
structure Hoja where
  HI : ℤ
  Tot : ℤ
  HN : String
deriving DecidableEq

structure Lista where
  LId : ℤ
  Dsc : String
  VH : ℤ
  VAL : ℤ
  Tot : ℤ
deriving DecidableEq

structure Sublema where
  Id : ℤ
  Nombre : String
  VH : ℤ
  VAS : ℤ
  Tot : ℤ
  ListasJunta : List Lista
  ListasMunicipio : List Lista
deriving DecidableEq

structure DetalleMunicipioPartido where
  Sublemas : List Sublema
  TALDSL : ℤ
  Tot : ℤ
deriving DecidableEq

structure DetalleIntendente where
  Listas : List Hoja
  TALDI : ℤ
  Tot : ℤ
deriving DecidableEq

structure DetalleJunta where
  Sublemas : List Sublema
  TALDSL : ℤ
  Tot : ℤ
deriving DecidableEq

structure PartidoMunicipio where
  LI : ℤ
  LN : String
  LIcon : Option String
  TH : ℤ
  TAL : ℤ
  Tot : ℤ
  Hojas : List Hoja
  Municipio : DetalleMunicipioPartido
deriving DecidableEq

structure PartidoDepartamento where
  LI : ℤ
  LN : String
  LIcon : Option String
  TH : ℤ
  TAL : ℤ
  Tot : ℤ
  Hojas : List Hoja
  Intendente : DetalleIntendente
  Junta : DetalleJunta
deriving DecidableEq

structure Municipio where
  MI : ℤ
  MD : String
  CE : ℤ
  CT : ℤ
  CP : String
  TA : ℤ
  TO : ℤ
  TNO : ℤ
  TE : ℤ
  TH : ℤ
  CFCO : Bool
  TEB : ℤ
  TEBP : ℤ
  TOR : ℤ
  CCO : ℤ
  Eleccion : List PartidoMunicipio
deriving DecidableEq

structure Departamento where
  DI : String
  DN : String
  CE : ℤ
  CT : ℤ
  CP : String
  TA : ℤ
  TO : ℤ
  TNO : ℤ
  TE : ℤ
  TH : ℤ
  CFCO : Bool
  TEB : ℤ
  TEBP : ℤ
  TOR : ℤ
  CCO : ℤ
  Municipales : List Municipio
  Departamentales : List PartidoDepartamento
deriving DecidableEq

structure ElectionSummary where
  year : ℤ
  departamentos : List Departamento
deriving DecidableEq

/- ------------------------------------------------------------------ -/
/- Cleaning transformer: src/domain/transformers/cleaning.py          -/
/- ------------------------------------------------------------------ -/

/-- The party alias table.  The source loads it from
infrastructure/conf/party_aliases.json; the file does not exist in the
repository, so the FileNotFoundError fallback leaves the table empty. -/
def partyAliases : List (String × String) := []

def isAsciiAlphaChar (c : Char) : Bool :=
  (65 ≤ c.toNat && c.toNat ≤ 90) || (97 ≤ c.toNat && c.toNat ≤ 122)

/-- ASCII model of str.title: a cased character is uppercased after a
non-cased character and lowercased after a cased one.  The boolean
argument records whether the previous character was a letter. -/
def pyTitleAux : Bool → List Char → List Char
  | _, [] => []
  | prevAlpha, c :: cs =>
    if isAsciiAlphaChar c then
      (if prevAlpha then toLowerChar c else pyUpperChar c) :: pyTitleAux true cs
    else c :: pyTitleAux false cs

def pyTitle (s : String) : String := String.mk (pyTitleAux false s.toList)

/-- Embedding of canonical_party: look up the simplified name in the
(empty) alias table, falling back to the title-cased raw string. -/
def canonicalParty (raw : String) : String :=
  match partyAliases.lookup (simplify raw) with
  | some v => v
  | none => pyTitle raw

def normHoja (h : Hoja) : Hoja := { h with HN := simplify h.HN }

def normLista (l : Lista) : Lista := { l with Dsc := simplify l.Dsc }

def normSublema (sl : Sublema) : Sublema :=
  { sl with ListasJunta := sl.ListasJunta.map normLista,
            ListasMunicipio := sl.ListasMunicipio.map normLista }

def normPartidoMuni (p : PartidoMunicipio) : PartidoMunicipio :=
  { p with LN := canonicalParty p.LN,
           Hojas := p.Hojas.map normHoja,
           Municipio := { p.Municipio with
             Sublemas := p.Municipio.Sublemas.map normSublema } }

def normMunicipio (m : Municipio) : Municipio :=
  { m with MD := simplify m.MD,
           CP := normalizeNumericValue (.pystr m.CP),
           Eleccion := m.Eleccion.map normPartidoMuni }

def normPartidoDepto (p : PartidoDepartamento) : PartidoDepartamento :=
  { p with LN := canonicalParty p.LN,
           Hojas := p.Hojas.map normHoja,
           Intendente := { p.Intendente with Listas := p.Intendente.Listas.map normHoja },
           Junta := { p.Junta with Sublemas := p.Junta.Sublemas.map normSublema } }

/-- The inline CP normalization of _norm_departamento: strip, commas to
dots, keep the empty string empty, and on a parse failure keep the
stripped value (unlike the helper used for municipios, which returns
"0"). -/
def normalizeCPDepto (s : String) : String :=
  let v := pyReplaceCommaDot (pyStripStr s)
  if v = ("") then v
  else
    match parseDecimal v.toList with
    | some d => renderDecimal d
    | none => v

def normDepartamento (d : Departamento) : Departamento :=
  { d with DN := simplify d.DN,
           Municipales := d.Municipales.map normMunicipio,
           Departamentales := d.Departamentales.map normPartidoDepto,
           CP := normalizeCPDepto d.CP }

/-- Embedding of clean.  The try/except around ValidationError in the
source is dead code: the pydantic copy(update=...) calls never
re-validate, and the models declare no validators at all, so clean is a
total function that cannot raise on any tree. -/
def clean (s : ElectionSummary) : ElectionSummary :=
  { s with departamentos := s.departamentos.map normDepartamento }

/-- Modelled from the spec: the child-total consistency requirement of
sections 3 and 4.1 for a Sublema, absent from src/domain/models.py
(which declares no validators): the declared total equals the sum of the
totals of its lists. -/
def sublemaConsistent (sl : Sublema) : Prop :=
  sl.Tot = (sl.ListasJunta.map (fun l => l.Tot)).sum +
    (sl.ListasMunicipio.map (fun l => l.Tot)).sum

instance (sl : Sublema) : Decidable (sublemaConsistent sl) :=
  inferInstanceAs (Decidable (_ = _))

/-- Modelled from the spec: consistency of a Junta block, whose declared
total must equal the sum of its sublemas. -/
def juntaConsistent (j : DetalleJunta) : Prop :=
  j.Tot = (j.Sublemas.map (fun s => s.Tot)).sum

instance (j : DetalleJunta) : Decidable (juntaConsistent j) :=
  inferInstanceAs (Decidable (_ = _))

/-- Modelled from the spec: a departmental party result is consistent
when its Junta block and every sublema inside it are. -/
def partidoDeptoConsistent (p : PartidoDepartamento) : Prop :=
  juntaConsistent p.Junta ∧ ∀ sl ∈ p.Junta.Sublemas, sublemaConsistent sl

instance (p : PartidoDepartamento) : Decidable (partidoDeptoConsistent p) :=
  inferInstanceAs (Decidable (_ ∧ _))

/-- Modelled from the spec: every composite node of the summary has
consistent child totals. -/
def summaryConsistent (s : ElectionSummary) : Prop :=
  ∀ d ∈ s.departamentos, ∀ p ∈ d.Departamentales, partidoDeptoConsistent p

instance (s : ElectionSummary) : Decidable (summaryConsistent s) :=
  inferInstanceAs (Decidable (∀ d ∈ s.departamentos, ∀ p ∈ d.Departamentales, _))

/- ------------------------------------------------------------------ -/
/- Enrichment: src/domain/enrichers/enrich.py                         -/
/- ------------------------------------------------------------------ -/

/-- Embedding of sumar_votos_por_lema: accumulate partido.Tot per LN
with the add-if-present dict pattern. -/
def sumarVotosPorLema (partidos : List PartidoDepartamento) : List (String × ℤ) :=
  partidos.foldl (fun d p => pyDictAdd d p.LN p.Tot) []

/-- Python max(items, key=lambda x: x[1]) over a non-empty list: the
first element attaining the maximal value wins (later elements replace
the accumulator only when strictly greater). -/
def pyMaxByVal (x : String × ℤ) (xs : List (String × ℤ)) : String × ℤ :=
  xs.foldl (fun acc y => if acc.2 < y.2 then y else acc) x

/-- max(votos.items(), ...)[0] if votos else dflt. -/
def ganadorFromVotos (votos : List (String × ℤ)) (dflt : String) : String :=
  match votos with
  | [] => dflt
  | x :: xs => (pyMaxByVal x xs).1

/-- The dict comprehension of enriquecer_municipio: keep only parties
with strictly positive Tot, later keys overwriting earlier ones. -/
def municipioVotosPorLema (m : Municipio) : List (String × ℤ) :=
  m.Eleccion.foldl (fun d p => if 0 < p.Tot then pyDictSet d p.LN p.Tot else d) []

/-- One step of the alcalde scan: state is (best list votes so far,
current alcalde name).  A list with strictly more votes takes over; its
Dsc is used when non-empty (Python truthiness of the string), otherwise
the name falls back to "No disponible" only while the running best is
non-positive. -/
def alcaldeStep (st : ℤ × String) (lista : Lista) : ℤ × String :=
  if st.1 < lista.Tot then
    (lista.Tot,
      if lista.Dsc ≠ ("") then lista.Dsc
      else if lista.Tot ≤ 0 then ("No disponible") else st.2)
  else st

/-- The alcalde extraction of enriquecer_municipio: walk the winning
party's ListasMunicipio; after the loop a non-positive best vote count
forces "No disponible". -/
def alcaldeDe (m : Municipio) (ganador : String) : String :=
  if ganador ≠ ("") ∧ ganador ≠ ("No disponible") then
    match m.Eleccion.find? (fun p => p.LN == ganador) with
    | none => ("No disponible")
    | some partido =>
      let listas := partido.Municipio.Sublemas.flatMap (fun s => s.ListasMunicipio)
      let st := listas.foldl alcaldeStep (-1, ("No disponible"))
      if st.1 ≤ 0 then ("No disponible") else st.2
  else ("No disponible")

structure MunicipioEnriquecido extends Municipio where
  ganador : String
  ediles : List (String × ℕ)
  mayor : String
deriving DecidableEq

/-- Embedding of enriquecer_municipio. -/
def enriquecerMunicipio (m : Municipio) : MunicipioEnriquecido :=
  let votos := municipioVotosPorLema m
  let ganador := ganadorFromVotos votos ("No disponible")
  let ediles := edilesPorLema votos 5 3
  let mayor := alcaldeDe m ganador
  { toMunicipio := m, ganador := ganador, ediles := ediles, mayor := mayor }

/-- The enriched department: the scalar fields are copied from the
input, Municipales is replaced by the enriched municipios, and the
ganador/ediles fields are filled in. -/
structure DepartamentoEnriquecido where
  DI : String
  DN : String
  CE : ℤ
  CT : ℤ
  CP : String
  TA : ℤ
  TO : ℤ
  TNO : ℤ
  TE : ℤ
  TH : ℤ
  CFCO : Bool
  TEB : ℤ
  TEBP : ℤ
  TOR : ℤ
  CCO : ℤ
  Municipales : List MunicipioEnriquecido
  Departamentales : List PartidoDepartamento
  ganador : String
  ediles : List (String × ℕ)
deriving DecidableEq

/-- Embedding of enriquecer_departamento: ediles_por_lema is called with
its defaults total_ediles=31, mayoria_auto=16; the winner default when
no party exists is the empty string. -/
def enriquecerDepartamento (d : Departamento) : DepartamentoEnriquecido :=
  let votos := sumarVotosPorLema d.Departamentales
  let ganador := ganadorFromVotos votos ("")
  let ediles := edilesPorLema votos 31 16
  { DI := d.DI, DN := d.DN, CE := d.CE, CT := d.CT, CP := d.CP, TA := d.TA, TO := d.TO,
    TNO := d.TNO, TE := d.TE, TH := d.TH, CFCO := d.CFCO, TEB := d.TEB, TEBP := d.TEBP,
    TOR := d.TOR, CCO := d.CCO,
    Municipales := d.Municipales.map enriquecerMunicipio,
    Departamentales := d.Departamentales,
    ganador := ganador, ediles := ediles }

structure ElectionSummaryEnriquecido where
  year : ℤ
  departamentos : List DepartamentoEnriquecido
deriving DecidableEq

def enrich (s : ElectionSummary) : ElectionSummaryEnriquecido :=
  ⟨s.year, s.departamentos.map enriquecerDepartamento⟩

/- ------------------------------------------------------------------ -/
/- National aggregation: aggregate in enrich.py                       -/
/- ------------------------------------------------------------------ -/

/-- Computable floor of a rational. -/
def ratFloorQ (q : ℚ) : ℤ := q.num.fdiv (q.den : ℤ)

/-- Exact model of round(x, 2): scale by 100, round half to even
(Python 3 banker's rounding), unscale.  The source rounds a float; the
model rounds the exact rational, which agrees whenever the float
artifacts do not straddle a half-way point. -/
def pyRound2 (q : ℚ) : ℚ :=
  let scaled := ratMulQ q (ratOfInt 100)
  let f := ratFloorQ scaled
  let frac := ratSubQ scaled (ratOfInt f)
  let r : ℤ :=
    if frac < Rat.divInt 1 2 then f
    else if Rat.divInt 1 2 < frac then f + 1
    else if f % 2 = 0 then f else f + 1
  ratDivQ (ratOfInt r) (ratOfInt 100)

structure AggregateStats where
  votosPorLema : List (String × ℤ)
  porcentajesNacionales : List (String × ℚ)
  totalVotos : ℤ
  departamentosPorLema : List (String × ℕ)
  municipiosPorLema : List (String × ℕ)
  edilesPorLemaNacional : List (String × ℕ)
  lemaMasVotado : Option String
deriving DecidableEq

/-- One department of the aggregation loop: votes and the valid total
accumulate per partido; the departmental winner counts once when
non-empty; ediles accumulate per lema; municipal winners count once
when non-empty. -/
def aggregateStep
    (acc : List (String × ℤ) × ℤ × List (String × ℕ) × List (String × ℕ) × List (String × ℕ))
    (depto : DepartamentoEnriquecido) :
    List (String × ℤ) × ℤ × List (String × ℕ) × List (String × ℕ) × List (String × ℕ) :=
  let vt := depto.Departamentales.foldl
    (fun (vt : List (String × ℤ) × ℤ) p => (pyDictAdd vt.1 p.LN p.Tot, vt.2 + p.Tot))
    (acc.1, acc.2.1)
  let deptos := if depto.ganador ≠ ("") then pyDictAdd acc.2.2.1 depto.ganador 1
    else acc.2.2.1
  let ediles := depto.ediles.foldl (fun d p => pyDictAdd d p.1 p.2) acc.2.2.2.2
  let munis := depto.Municipales.foldl
    (fun d m => if m.ganador ≠ ("") then pyDictAdd d m.ganador 1 else d) acc.2.2.2.1
  (vt.1, vt.2, deptos, munis, ediles)

/-- Embedding of aggregate.  The returned Python dict also carries alias
keys (votos_totales, porcentajes, ...) bound to the same objects; the
structure keeps one field per distinct object. -/
def aggregate (s : ElectionSummaryEnriquecido) : AggregateStats :=
  let res := s.departamentos.foldl aggregateStep ([], 0, [], [], [])
  let porcentajes : List (String × ℚ) :=
    if 0 < res.2.1 then
      res.1.map (fun p =>
        (p.1, pyRound2 (ratMulQ (ratDivQ (ratOfInt p.2) (ratOfInt res.2.1)) (ratOfInt 100))))
    else []
  let lemaMasVotado : Option String :=
    match res.1 with
    | [] => none
    | x :: xs => some (pyMaxByVal x xs).1
  ⟨res.1, porcentajes, res.2.1, res.2.2.1, res.2.2.2.1, res.2.2.2.2, lemaMasVotado⟩

/- ------------------------------------------------------------------ -/
/- Lemmas for the enrichment theorems                                 -/
/- ------------------------------------------------------------------ -/

lemma pyDictAdd_keys {α : Type} [Add α] (d : List (String × α)) (k : String) (v : α) :
    (pyDictAdd d k v).map Prod.fst =
      if d.any (fun p => p.1 == k) then d.map Prod.fst else d.map Prod.fst ++ [k] := by
  rw [pyDictAdd]
  by_cases h : d.any (fun p => p.1 == k)
  · rw [if_pos h, if_pos h, List.map_map]
    apply List.map_congr_left
    intro p _
    by_cases hp : p.1 == k
    · simp only [Function.comp_apply, if_pos hp]
    · simp only [Function.comp_apply, if_neg hp]
  · rw [if_neg h, if_neg h, List.map_append]
    rfl

lemma pyDictAdd_nodup {α : Type} [Add α] (d : List (String × α)) (k : String) (v : α)
    (h : (d.map Prod.fst).Nodup) : ((pyDictAdd d k v).map Prod.fst).Nodup := by
  rw [pyDictAdd_keys]
  by_cases hc : d.any (fun p => p.1 == k)
  · rwa [if_pos hc]
  · rw [if_neg hc, List.nodup_append]
    refine ⟨h, List.nodup_singleton k, ?_⟩
    intro a ha hb
    rw [List.mem_singleton] at hb
    subst hb
    obtain ⟨p, hp, hpk⟩ := List.mem_map.mp ha
    apply hc
    rw [List.any_eq_true]
    exact ⟨p, hp, by simp [hpk]⟩

lemma pyDictAdd_key_mem {α : Type} [Add α] (d : List (String × α)) (k : String) (v : α) :
    ∀ q ∈ pyDictAdd d k v, q.1 ∈ d.map Prod.fst ∨ q.1 = k := by
  intro q hq
  rw [pyDictAdd] at hq
  by_cases hc : d.any (fun p => p.1 == k)
  · rw [if_pos hc] at hq
    obtain ⟨p, hp, hpe⟩ := List.mem_map.mp hq
    left
    by_cases hpk : p.1 == k
    · rw [if_pos hpk] at hpe
      rw [← hpe]
      show p.1 ∈ d.map Prod.fst
      exact List.mem_map_of_mem _ hp
    · rw [if_neg hpk] at hpe
      rw [← hpe]
      exact List.mem_map_of_mem _ hp
  · rw [if_neg hc, List.mem_append] at hq
    rcases hq with hq | hq
    · exact Or.inl (List.mem_map_of_mem _ hq)
    · rw [List.mem_singleton] at hq
      rw [hq]
      exact Or.inr rfl

lemma pyDictAdd_length {α : Type} [Add α] (d : List (String × α)) (k : String) (v : α) :
    d.length ≤ (pyDictAdd d k v).length := by
  rw [pyDictAdd]
  by_cases hc : d.any (fun p => p.1 == k)
  · rw [if_pos hc, List.length_map]
  · rw [if_neg hc, List.length_append]
    omega

lemma sumar_fold_nodup : ∀ (l : List PartidoDepartamento) (acc : List (String × ℤ)),
    (acc.map Prod.fst).Nodup →
    ((l.foldl (fun d p => pyDictAdd d p.LN p.Tot) acc).map Prod.fst).Nodup
  | [], acc, h => h
  | p :: t, acc, h => by
    rw [List.foldl_cons]
    exact sumar_fold_nodup t _ (pyDictAdd_nodup acc p.LN p.Tot h)

/-- The keys produced by sumar_votos_por_lema are distinct. -/
lemma sumar_nodup (partidos : List PartidoDepartamento) :
    ((sumarVotosPorLema partidos).map Prod.fst).Nodup :=
  sumar_fold_nodup partidos [] List.nodup_nil

lemma sumar_fold_keys : ∀ (l : List PartidoDepartamento) (acc : List (String × ℤ))
    (S : List String), (∀ q ∈ acc, q.1 ∈ S) → (∀ p ∈ l, p.LN ∈ S) →
    ∀ q ∈ l.foldl (fun d p => pyDictAdd d p.LN p.Tot) acc, q.1 ∈ S
  | [], _, _, hacc, _, q, hq => hacc q hq
  | p :: t, acc, S, hacc, hl, q, hq => by
    rw [List.foldl_cons] at hq
    refine sumar_fold_keys t _ S ?_ (fun r hr => hl r (List.mem_cons_of_mem _ hr)) q hq
    intro r hr
    rcases pyDictAdd_key_mem acc p.LN p.Tot r hr with hm | hm
    · obtain ⟨s, hs, hse⟩ := List.mem_map.mp hm
      rw [← hse]
      exact hacc s hs
    · rw [hm]
      exact hl p (List.mem_cons_self _ _)

/-- Every key of sumar_votos_por_lema is the lema of some input party. -/
lemma sumar_keys_sub (partidos : List PartidoDepartamento) :
    ∀ q ∈ sumarVotosPorLema partidos, q.1 ∈ partidos.map (fun p => p.LN) :=
  sumar_fold_keys partidos [] _ (fun q hq => absurd hq (List.not_mem_nil q))
    (fun p hp => List.mem_map_of_mem _ hp)

lemma sumar_fold_length : ∀ (l : List PartidoDepartamento) (acc : List (String × ℤ)),
    acc.length ≤ (l.foldl (fun d p => pyDictAdd d p.LN p.Tot) acc).length
  | [], _ => le_refl _
  | p :: t, acc => by
    rw [List.foldl_cons]
    exact le_trans (pyDictAdd_length acc p.LN p.Tot) (sumar_fold_length t _)

/-- sumar_votos_por_lema of a non-empty party list is non-empty. -/
lemma sumar_ne_nil (partidos : List PartidoDepartamento) (h : partidos ≠ []) :
    sumarVotosPorLema partidos ≠ [] := by
  match partidos, h with
  | p :: t, _ =>
    intro hc
    have h1 : (1 : ℕ) ≤ (sumarVotosPorLema (p :: t)).length := by
      show (1 : ℕ) ≤ ((p :: t).foldl (fun d q => pyDictAdd d q.LN q.Tot) []).length
      rw [List.foldl_cons]
      refine le_trans ?_ (sumar_fold_length t _)
      show (1 : ℕ) ≤ (pyDictAdd [] p.LN p.Tot).length
      rw [pyDictAdd]
      simp
    rw [hc] at h1
    simp at h1

/-- The result of the Python max fold is an element of the candidates. -/
lemma pyMaxByVal_fold_mem : ∀ (xs : List (String × ℤ)) (acc : String × ℤ)
    (l0 : List (String × ℤ)), acc ∈ l0 → (∀ y ∈ xs, y ∈ l0) →
    xs.foldl (fun a y => if a.2 < y.2 then y else a) acc ∈ l0
  | [], _, _, hacc, _ => hacc
  | y :: ys, acc, l0, hacc, hl => by
    rw [List.foldl_cons]
    refine pyMaxByVal_fold_mem ys _ l0 ?_ (fun z hz => hl z (List.mem_cons_of_mem _ hz))
    by_cases hc : acc.2 < y.2
    · rw [if_pos hc]
      exact hl y (List.mem_cons_self _ _)
    · rw [if_neg hc]
      exact hacc

lemma pyMaxByVal_mem (x : String × ℤ) (xs : List (String × ℤ)) :
    pyMaxByVal x xs ∈ x :: xs :=
  pyMaxByVal_fold_mem xs x (x :: xs) (List.mem_cons_self _ _)
    (fun y hy => List.mem_cons_of_mem _ hy)

/-- In a list with distinct keys, an element sharing the key of a member
is that member. -/
lemma nodup_key_unique : ∀ (l : List (String × ℤ)), (l.map Prod.fst).Nodup →
    ∀ {w : String} {vw : ℤ}, (w, vw) ∈ l → ∀ p ∈ l, p.1 = w → p = (w, vw)
  | [], _, _, _, hmem, _, _, _ => absurd hmem (List.not_mem_nil _)
  | x :: t, hnd, w, vw, hmem, p, hp, hpw => by
    rw [List.map_cons, List.nodup_cons] at hnd
    rcases List.mem_cons.mp hmem with hx | hx
    · rcases List.mem_cons.mp hp with hpx | hpx
      · rw [hpx, ← hx]
      · exfalso
        apply hnd.1
        have h1 : p.1 ∈ t.map Prod.fst := List.mem_map_of_mem _ hpx
        rw [hpw] at h1
        rw [← hx]
        exact h1
    · rcases List.mem_cons.mp hp with hpx | hpx
      · exfalso
        apply hnd.1
        have h1 : (w, vw).1 ∈ t.map Prod.fst := List.mem_map_of_mem _ hx
        rw [← hpx, hpw]
        exact h1
      · exact nodup_key_unique t hnd.2 hx p hpx hpw

/-- The Python max fold returns the pair (w, vw) whenever vw is a strict
upper bound for every other key and the accumulator is either (w, vw)
itself or strictly below vw with (w, vw) still ahead. -/
lemma pyMaxByVal_fold_spec (w : String) (vw : ℤ) :
    ∀ (xs : List (String × ℤ)) (acc : String × ℤ),
      (acc = (w, vw) ∨ (acc.2 < vw ∧ (w, vw) ∈ xs)) →
      (∀ p ∈ xs, p.1 ≠ w → p.2 < vw) →
      (∀ p ∈ xs, p.1 = w → p = (w, vw)) →
      xs.foldl (fun a y => if a.2 < y.2 then y else a) acc = (w, vw)
  | [], acc, h1, _, _ => by
    rcases h1 with h | ⟨_, hmem⟩
    · exact h
    · exact absurd hmem (List.not_mem_nil _)
  | y :: ys, acc, h1, h2, h3 => by
    rw [List.foldl_cons]
    refine pyMaxByVal_fold_spec w vw ys _ ?_
      (fun p hp => h2 p (List.mem_cons_of_mem _ hp))
      (fun p hp => h3 p (List.mem_cons_of_mem _ hp))
    rcases h1 with hacc | ⟨hlt, hmem⟩
    · by_cases hy : acc.2 < y.2
      · exfalso
        by_cases hyw : y.1 = w
        · have hye := h3 y (List.mem_cons_self _ _) hyw
          rw [hacc, hye] at hy
          exact lt_irrefl _ hy
        · have hyv := h2 y (List.mem_cons_self _ _) hyw
          rw [hacc] at hy
          exact absurd hyv (not_lt.mpr (le_of_lt hy))
      · rw [if_neg hy]
        exact Or.inl hacc
    · rcases List.mem_cons.mp hmem with hy | hy
      · have hy2 : y.2 = vw := by rw [← hy]
        rw [if_pos (by rw [hy2]; exact hlt)]
        exact Or.inl hy.symm
      · by_cases hc : acc.2 < y.2
        · rw [if_pos hc]
          by_cases hyw : y.1 = w
          · exact Or.inl (h3 y (List.mem_cons_self _ _) hyw)
          · exact Or.inr ⟨h2 y (List.mem_cons_self _ _) hyw, hy⟩
        · rw [if_neg hc]
          exact Or.inr ⟨hlt, hy⟩

/-- With distinct keys, a strictly maximal entry wins the Python max. -/
lemma ganadorFromVotos_strict_max (votos : List (String × ℤ)) (w : String) (vw : ℤ)
    (hnd : (votos.map Prod.fst).Nodup) (hmem : (w, vw) ∈ votos)
    (hstrict : ∀ p ∈ votos, p.1 ≠ w → p.2 < vw) (dflt : String) :
    ganadorFromVotos votos dflt = w := by
  match votos, hmem with
  | x :: xs, hmem =>
    show (pyMaxByVal x xs).1 = w
    have huniq := nodup_key_unique (x :: xs) hnd hmem
    have hfold : pyMaxByVal x xs = (w, vw) := by
      refine pyMaxByVal_fold_spec w vw xs x ?_
        (fun p hp => hstrict p (List.mem_cons_of_mem _ hp) )
        (fun p hp => huniq p (List.mem_cons_of_mem _ hp))
      rcases List.mem_cons.mp hmem with hx | hx
      · exact Or.inl hx.symm
      · by_cases hxw : x.1 = w
        · exact Or.inl (huniq x (List.mem_cons_self _ _) hxw)
        · exact Or.inr ⟨hstrict x (List.mem_cons_self _ _) hxw, hx⟩
    rw [hfold]

lemma enriquecerMunicipio_ganador (m : Municipio) :
    (enriquecerMunicipio m).ganador =
      ganadorFromVotos (municipioVotosPorLema m) ("No disponible") := rfl

lemma enriquecerMunicipio_ediles (m : Municipio) :
    (enriquecerMunicipio m).ediles = edilesPorLema (municipioVotosPorLema m) 5 3 := rfl

lemma enriquecerDepartamento_ganador (d : Departamento) :
    (enriquecerDepartamento d).ganador =
      ganadorFromVotos (sumarVotosPorLema d.Departamentales) ("") := rfl

lemma enriquecerDepartamento_ediles (d : Departamento) :
    (enriquecerDepartamento d).ediles =
      edilesPorLema (sumarVotosPorLema d.Departamentales) 31 16 := rfl

lemma municipioVotos_fold_const : ∀ (l : List PartidoMunicipio)
    (acc : List (String × ℤ)), (∀ p ∈ l, p.Tot ≤ 0) →
    l.foldl (fun d p => if 0 < p.Tot then pyDictSet d p.LN p.Tot else d) acc = acc
  | [], _, _ => rfl
  | p :: t, acc, h => by
    rw [List.foldl_cons, if_neg (not_lt.mpr (h p (List.mem_cons_self _ _)))]
    exact municipioVotos_fold_const t acc (fun q hq => h q (List.mem_cons_of_mem _ hq))

/-- When no party has positive votes, the municipal vote dict is empty. -/
lemma municipioVotos_nil (m : Municipio) (h : ∀ p ∈ m.Eleccion, p.Tot ≤ 0) :
    municipioVotosPorLema m = [] :=
  municipioVotos_fold_const m.Eleccion [] h

lemma aggregate_fields (s : ElectionSummaryEnriquecido) :
    (aggregate s).totalVotos = (s.departamentos.foldl aggregateStep ([], 0, [], [], [])).2.1 ∧
    (aggregate s).votosPorLema = (s.departamentos.foldl aggregateStep ([], 0, [], [], [])).1 ∧
    (aggregate s).porcentajesNacionales =
      (if 0 < (s.departamentos.foldl aggregateStep ([], 0, [], [], [])).2.1 then
        (s.departamentos.foldl aggregateStep ([], 0, [], [], [])).1.map (fun p =>
          (p.1, pyRound2 (ratMulQ (ratDivQ (ratOfInt p.2)
            (ratOfInt (s.departamentos.foldl aggregateStep ([], 0, [], [], [])).2.1))
            (ratOfInt 100))))
      else []) :=
  ⟨rfl, rfl, rfl⟩

/- ------------------------------------------------------------------ -/
/- Concrete fixtures                                                  -/
/- ------------------------------------------------------------------ -/

def mkPD (ln : String) (tot : ℤ) : PartidoDepartamento :=
  ⟨0, ln, none, 0, 0, tot, [], ⟨[], 0, 0⟩, ⟨[], 0, 0⟩⟩

def mkPM (ln : String) (tot : ℤ) : PartidoMunicipio :=
  ⟨0, ln, none, 0, 0, tot, [], ⟨[], 0, 0⟩⟩

def exDept : Departamento :=
  ⟨("01"), ("MONTEVIDEO"), 0, 0, (""), 0, 0, 0, 0, 0, false, 0, 0, 0, 0, [],
    [mkPD ("A") 100, mkPD ("B") 50]⟩

def exMuniZero : Municipio :=
  ⟨1, ("M1"), 0, 0, (""), 0, 0, 0, 0, 0, false, 0, 0, 0, 0, [mkPM ("A") 0]⟩

def exDeptZero : Departamento :=
  ⟨("02"), ("Z"), 0, 0, (""), 0, 0, 0, 0, 0, false, 0, 0, 0, 0, [],
    [mkPD ("A") 0, mkPD ("B") 0]⟩

def mkDE (parts : List PartidoDepartamento) (g : String) (ed : List (String × ℕ)) :
    DepartamentoEnriquecido :=
  ⟨("01"), ("X"), 0, 0, (""), 0, 0, 0, 0, 0, false, 0, 0, 0, 0, [], parts, g, ed⟩

def exC9 : ElectionSummaryEnriquecido := ⟨2025, [mkDE [mkPD ("A") 0] ("A") []]⟩

def exC9pos : ElectionSummaryEnriquecido :=
  ⟨2025, [mkDE [mkPD ("A") 3, mkPD ("B") 1] ("A") []]⟩

/-- A tree whose sublema declares total 10 while its lists sum to 1:
inconsistent in the sense the spec requires construction to reject. -/
def badSublema : Sublema := ⟨1, ("SL UNO"), 0, 0, 10, [⟨1, ("JUAN PEREZ"), 0, 0, 1⟩], []⟩

def badPartido : PartidoDepartamento :=
  ⟨1, ("Partido A"), none, 0, 0, 10, [], ⟨[], 0, 0⟩, ⟨[badSublema], 0, 10⟩⟩

def badSummary : ElectionSummary :=
  ⟨2025, [⟨("01"), ("MONTEVIDEO"), 0, 0, ("0"), 0, 0, 0, 0, 0, false, 0, 0, 0, 0, [],
    [badPartido]⟩]⟩

/- ------------------------------------------------------------------ -/
/- Claim theorems C3, C8, C9, C10                                     -/
/- ------------------------------------------------------------------ -/

/-- C3: the spec requires construction of every composite entity to
fail on child-total mismatches; the models declare no validators and
clean never raises, so an inconsistent tree (a sublema declaring total
10 over lists summing to 1) is accepted by the whole cleaning stage and
is still inconsistent afterwards. -/
theorem c3_validation_missing :
    ¬ summaryConsistent badSummary ∧
    (clean badSummary).departamentos.length = 1 ∧
    ¬ summaryConsistent (clean badSummary) := by decide

/-- C8: for every department whose per-lema summed votes contain a
strictly maximal entry, enriquecer_departamento reports that lema as
ganador, and its ediles field is exactly the Article-272 apportionment
with 31 seats and threshold 16 applied to the summed votes. -/
theorem c8_department_winner_and_seats (d : Departamento) (w : String) (vw : ℤ)
    (hmem : (w, vw) ∈ sumarVotosPorLema d.Departamentales)
    (hstrict : ∀ p ∈ sumarVotosPorLema d.Departamentales, p.1 ≠ w → p.2 < vw) :
    (enriquecerDepartamento d).ganador = w ∧
    (enriquecerDepartamento d).ediles =
      edilesPorLema (sumarVotosPorLema d.Departamentales) 31 16 :=
  ⟨by
    rw [enriquecerDepartamento_ganador]
    exact ganadorFromVotos_strict_max _ w vw (sumar_nodup _) hmem hstrict _,
   enriquecerDepartamento_ediles d⟩

/-- C8 witness: a department with parties A:100 and B:50 gets winner A
and the (31, 16) apportionment of its summed votes. -/
theorem c8_witness :
    (enriquecerDepartamento exDept).ganador = ("A") ∧
    (enriquecerDepartamento exDept).ediles =
      edilesPorLema (sumarVotosPorLema exDept.Departamentales) 31 16 :=
  c8_department_winner_and_seats exDept ("A") 100 (by decide) (by decide)

/-- C9 counterexample: with a single party credited 0 votes the
aggregator returns an EMPTY percentages dict, not a dict assigning the
percentage 0 to each lema as the claim states. -/
theorem c9_counterexample :
    (aggregate exC9).votosPorLema = [(("A"), 0)] ∧
    (aggregate exC9).totalVotos = 0 ∧
    (aggregate exC9).porcentajesNacionales = [] ∧
    ¬((aggregate exC9).porcentajesNacionales = [(("A"), ratOfInt 0)]) := by decide

/-- C9 (amended): the zero-total guard yields the empty percentages
mapping (no failure, but no per-lema zeros); with a positive total every
lema is mapped to its rounded vote share of the party-credited total. -/
theorem c9_percentages_guard (s : ElectionSummaryEnriquecido) :
    ((aggregate s).totalVotos ≤ 0 → (aggregate s).porcentajesNacionales = []) ∧
    (0 < (aggregate s).totalVotos →
      (aggregate s).porcentajesNacionales =
        (aggregate s).votosPorLema.map (fun p =>
          (p.1, pyRound2 (ratMulQ
            (ratDivQ (ratOfInt p.2) (ratOfInt (aggregate s).totalVotos))
            (ratOfInt 100))))) := by
  obtain ⟨ht, hv, hp⟩ := aggregate_fields s
  constructor
  · intro h
    rw [ht] at h
    rw [hp, if_neg (by omega)]
  · intro h
    rw [ht] at h
    rw [hp, if_pos h, hv, ht]

/-- C9 witness: the guard theorem applied to a zero-total summary (empty
percentages) and to a 3:1 summary (75 and 25 percent). -/
theorem c9_witness :
    (aggregate exC9).porcentajesNacionales = [] ∧
    (aggregate exC9pos).porcentajesNacionales =
      [(("A"), ratOfInt 75), (("B"), ratOfInt 25)] := by
  constructor
  · exact (c9_percentages_guard exC9).1 (by decide)
  · rw [(c9_percentages_guard exC9pos).2 (by decide)]
    decide

/-- C10: municipal enrichment filters out non-positive party totals, so
an all-non-positive municipality gets winner "No disponible" and an
empty seat mapping; departmental enrichment applies no such filter, so a
department whose parties all have zero votes still gets a winner among
its lemas and a full 31-seat distribution. -/
theorem c10_zero_vote_filter_asymmetry :
    (∀ m : Municipio, (∀ p ∈ m.Eleccion, p.Tot ≤ 0) →
      (enriquecerMunicipio m).ganador = ("No disponible") ∧
      (enriquecerMunicipio m).ediles = []) ∧
    (∀ d : Departamento, d.Departamentales ≠ [] →
      (∀ p ∈ d.Departamentales, p.Tot = 0) →
      (enriquecerDepartamento d).ganador ∈ d.Departamentales.map (fun p => p.LN) ∧
      (((enriquecerDepartamento d).ediles).map Prod.snd).sum = 31) := by
  constructor
  · intro m h
    have hv := municipioVotos_nil m h
    constructor
    · rw [enriquecerMunicipio_ganador, hv]
      rfl
    · rw [enriquecerMunicipio_ediles, hv]
      rfl
  · intro d hne _
    have hsne := sumar_ne_nil d.Departamentales hne
    constructor
    · rw [enriquecerDepartamento_ganador]
      cases hq : sumarVotosPorLema d.Departamentales with
      | nil => exact absurd hq hsne
      | cons x xs =>
        show (pyMaxByVal x xs).1 ∈ _
        have hm : pyMaxByVal x xs ∈ sumarVotosPorLema d.Departamentales := by
          rw [hq]
          exact pyMaxByVal_mem x xs
        exact sumar_keys_sub d.Departamentales _ hm
    · rw [enriquecerDepartamento_ediles]
      exact edilesPorLema_sum _ 31 16 hsne (sumar_nodup _) (by omega)

/-- C10 witness: the asymmetry theorem applied to a municipality whose
only party has 0 votes and a department whose two parties both have 0
votes. -/
theorem c10_witness :
    ((enriquecerMunicipio exMuniZero).ganador = ("No disponible") ∧
      (enriquecerMunicipio exMuniZero).ediles = []) ∧
    ((enriquecerDepartamento exDeptZero).ganador ∈
        exDeptZero.Departamentales.map (fun p => p.LN) ∧
      (((enriquecerDepartamento exDeptZero).ediles).map Prod.snd).sum = 31) :=
  ⟨c10_zero_vote_filter_asymmetry.1 exMuniZero (by decide),
   c10_zero_vote_filter_asymmetry.2 exDeptZero (by decide) (by decide)⟩
